import Mathlib

/-!
Verification development for the Zither chunk/layout core.

Part 1 embeds the rectangle packer (`calculateMaxRectsLayout` and its
helpers from the pane-layout module) over integer coordinates.
Part 2 embeds the `ChunkManager` (load/unload/mountPane/renderChunks and
the recursive `rotate` spiral) together with the key/value chunk store.
JS `number` arithmetic on coordinates and sizes is modelled exactly over
`Int`; the ratio `utilization` is modelled over `Rat`.
-/

set_option maxHeartbeats 1000000

namespace Zither

/-- Axis-aligned rectangle, as the packer's free-rectangle records
`{ x, y, width, height }`. -/
structure Rect where
  x : Int
  y : Int
  width : Int
  height : Int
deriving DecidableEq, Repr

/-- The `PaneData` record (from `app.d.ts`); the opaque `data : Object`
payload is modelled as a `String`. -/
structure PaneData where
  uuid : String
  paneType : String
  data : String
  chunkCoords : Int × Int
  paneCoords : Int × Int
  paneSize : Int × Int
  semanticTags : String
  color : Int × Int × Int × Int
deriving DecidableEq, Repr

/-- One entry of the packer output (`PanePosition`). -/
structure PanePosition where
  uuid : String
  position : Int × Int
  size : Int × Int
deriving DecidableEq, Repr

/-- The packer result (`LayoutResult`). -/
structure LayoutResult where
  positions : List PanePosition
  fitsWell : Bool
  utilization : Rat
deriving DecidableEq, Repr

/-- The option record of the layout module, with its default values
(`minPaneSize = [100, 80]`, `padding = 8`, `margin = 16`). -/
structure PaneLayoutOptions where
  minPaneSize : Int × Int := (100, 80)
  padding : Int := 8
  margin : Int := 16
deriving DecidableEq, Repr

/-- The per-item size rule of `calculateMaxRectsLayout`: use the looked-up
`paneSize` when both dimensions are positive, else `minPaneSize`. -/
def sizeFor (dataMap : String → Option PaneData) (minPaneSize : Int × Int)
    (uuid : String) : Int × Int :=
  match dataMap uuid with
  | some d => if 0 < d.paneSize.1 ∧ 0 < d.paneSize.2 then d.paneSize else minPaneSize
  | none => minPaneSize

/-- An item together with its resolved size (the `panesWithSizes` entries). -/
structure SizedPane where
  uuid : String
  width : Int
  height : Int
deriving DecidableEq, Repr

def SizedPane.area (p : SizedPane) : Int := p.width * p.height

/-- One comparison step of the Best-Short-Side-Fit scan over free
rectangles: keep the accumulator unless the candidate fits and strictly
improves (shorter leftover side, ties by longer leftover side).  The
accumulator carries the best rectangle with its two leftover measures;
`none` plays the role of the `bestShortSide = Infinity` start. -/
def considerRect (requiredWidth requiredHeight : Int)
    (acc : Option (Rect × Int × Int)) (r : Rect) : Option (Rect × Int × Int) :=
  if requiredWidth ≤ r.width ∧ requiredHeight ≤ r.height then
    let shortSide := min (r.width - requiredWidth) (r.height - requiredHeight)
    let longSide := max (r.width - requiredWidth) (r.height - requiredHeight)
    match acc with
    | none => some (r, shortSide, longSide)
    | some (br, bss, bls) =>
      if shortSide < bss ∨ (shortSide = bss ∧ longSide < bls) then
        some (r, shortSide, longSide)
      else some (br, bss, bls)
  else acc

/-- The Best-Short-Side-Fit search of `calculateMaxRectsLayout`. -/
def findBestRect (freeRects : List Rect) (requiredWidth requiredHeight : Int) :
    Option (Rect × Int × Int) :=
  freeRects.foldl (considerRect requiredWidth requiredHeight) none

/-- The overlap test guarding the clipping pass (negation of the four
separating-axis comparisons, exactly as in the source). -/
def overlapsRect (freeRect placedRect : Rect) : Prop :=
  ¬(placedRect.x + placedRect.width ≤ freeRect.x ∨
    freeRect.x + freeRect.width ≤ placedRect.x ∨
    placedRect.y + placedRect.height ≤ freeRect.y ∨
    freeRect.y + freeRect.height ≤ placedRect.y)

instance (f p : Rect) : Decidable (overlapsRect f p) := by
  unfold overlapsRect; infer_instance

/-- `clipRectangle`: subtract a placed rectangle from a free rectangle,
yielding the up-to-four leftover slivers, dropping degenerate ones. -/
def clipRectangle (freeRect placedRect : Rect) : List Rect :=
  ((if freeRect.x < placedRect.x then
      [Rect.mk freeRect.x freeRect.y (placedRect.x - freeRect.x) freeRect.height]
    else []) ++
   (if placedRect.x + placedRect.width < freeRect.x + freeRect.width then
      [Rect.mk (placedRect.x + placedRect.width) freeRect.y
        (freeRect.x + freeRect.width - (placedRect.x + placedRect.width)) freeRect.height]
    else []) ++
   (if freeRect.y < placedRect.y then
      [Rect.mk freeRect.x freeRect.y freeRect.width (placedRect.y - freeRect.y)]
    else []) ++
   (if placedRect.y + placedRect.height < freeRect.y + freeRect.height then
      [Rect.mk freeRect.x (placedRect.y + placedRect.height) freeRect.width
        (freeRect.y + freeRect.height - (placedRect.y + placedRect.height))]
    else [])).filter (fun r => decide (0 < r.width ∧ 0 < r.height))

/-- Containment of `r1` in `r2`, as tested by `removeRedundantRectangles`. -/
def containedIn (r1 r2 : Rect) : Prop :=
  r2.x ≤ r1.x ∧ r2.y ≤ r1.y ∧
  r1.x + r1.width ≤ r2.x + r2.width ∧ r1.y + r1.height ≤ r2.y + r2.height

instance (r1 r2 : Rect) : Decidable (containedIn r1 r2) := by
  unfold containedIn; infer_instance

/-- One outer-loop iteration of `removeRedundantRectangles`: if the
rectangle at index `i` is contained in a rectangle at another index,
remove it (the inner loop breaks after the splice). -/
def redundantStep (rects : List Rect) (i : Nat) : List Rect :=
  match rects[i]? with
  | none => rects
  | some ri =>
    if rects.enum.any (fun e => decide (e.1 ≠ i) && decide (containedIn ri e.2)) then
      rects.eraseIdx i
    else rects

/-- `removeRedundantRectangles`: scan indices downward from the original
length, removing any rectangle contained in another. -/
def removeRedundantRectangles (rects : List Rect) : List Rect :=
  ((List.range rects.length).reverse).foldl redundantStep rects

/-- The fallback `y` of the no-fit branch: beneath the lowest bottom edge
of the already placed items plus padding, or `margin` if none placed. -/
def fallbackY (padding margin : Int) (positions : List PanePosition) : Int :=
  match positions.map (fun p => p.position.2 + p.size.2) with
  | [] => margin
  | b :: bs => bs.foldl max b + padding

/-- Loop state of the placement loop of `calculateMaxRectsLayout`. -/
structure PackState where
  freeRects : List Rect
  positions : List PanePosition
  fitsWell : Bool
deriving DecidableEq, Repr

/-- One iteration of the placement loop: find the best free rectangle,
place there and clip, or take the fallback placement. -/
def packStep (padding margin : Int) (st : PackState) (pane : SizedPane) : PackState :=
  let requiredWidth := pane.width + padding
  let requiredHeight := pane.height + padding
  match findBestRect st.freeRects requiredWidth requiredHeight with
  | none =>
    { st with
      fitsWell := false
      positions := st.positions ++
        [⟨pane.uuid, (margin, fallbackY padding margin st.positions),
          (pane.width, pane.height)⟩] }
  | some (chosen, _, _) =>
    let placedRect : Rect := ⟨chosen.x, chosen.y, requiredWidth, requiredHeight⟩
    let newFreeRects := st.freeRects.flatMap (fun freeRect =>
      if overlapsRect freeRect placedRect then clipRectangle freeRect placedRect
      else [freeRect])
    { freeRects := removeRedundantRectangles newFreeRects
      positions := st.positions ++
        [⟨pane.uuid, (chosen.x, chosen.y), (pane.width, pane.height)⟩]
      fitsWell := st.fitsWell }

/-- The sorted item list of `calculateMaxRectsLayout`: descending area,
stable (the JS engine's `sort` with comparator `b.area - a.area` is a
stable sort; it is modelled here by a stable insertion sort). -/
def panesWithSizes (paneUuids : List String) (dataMap : String → Option PaneData)
    (minPaneSize : Int × Int) : List SizedPane :=
  List.insertionSort (fun a b => b.area ≤ a.area)
    (paneUuids.map (fun u =>
      ⟨u, (sizeFor dataMap minPaneSize u).1, (sizeFor dataMap minPaneSize u).2⟩))

/-- `calculateMaxRectsLayout`: MaxRects packing with Best-Short-Side-Fit,
returning placements, the all-fit flag and the utilization ratio. -/
def calculateMaxRectsLayout (paneUuids : List String) (chunkDimensions : Int × Int)
    (dataMap : String → Option PaneData) (options : PaneLayoutOptions) : LayoutResult :=
  if paneUuids = [] then ⟨[], true, 0⟩
  else
    let margin := options.margin
    let chunkWidth := chunkDimensions.1
    let chunkHeight := chunkDimensions.2
    let initialFree : List Rect :=
      [⟨margin, margin, chunkWidth - 2 * margin, chunkHeight - 2 * margin⟩]
    let final := (panesWithSizes paneUuids dataMap options.minPaneSize).foldl
      (packStep options.padding margin) ⟨initialFree, [], true⟩
    let totalPaneArea : Int := final.positions.foldl (fun s p => s + p.size.1 * p.size.2) 0
    ⟨final.positions, final.fitsWell, Rat.divInt totalPaneArea (chunkWidth * chunkHeight)⟩

/-- Lattice-point membership in a rectangle (half-open on both axes). -/
def inRect (q : Int × Int) (r : Rect) : Prop :=
  r.x ≤ q.1 ∧ q.1 < r.x + r.width ∧ r.y ≤ q.2 ∧ q.2 < r.y + r.height

instance (q : Int × Int) (r : Rect) : Decidable (inRect q r) := by
  unfold inRect; infer_instance

/-- The padded footprint a placement occupies (`width + padding`,
`height + padding`, anchored at the placement corner). -/
def footprint (padding : Int) (p : PanePosition) : Rect :=
  ⟨p.position.1, p.position.2, p.size.1 + padding, p.size.2 + padding⟩

/-- The rectangle covered by the item itself. -/
def itemRect (p : PanePosition) : Rect :=
  ⟨p.position.1, p.position.2, p.size.1, p.size.2⟩

/-- Two rectangles share no lattice point. -/
def RectDisjoint (a b : Rect) : Prop := ∀ q : Int × Int, ¬(inRect q a ∧ inRect q b)

/-- Every lattice point of `a` lies in `b`. -/
def RectSub (a b : Rect) : Prop := ∀ q : Int × Int, inRect q a → inRect q b

/-- The container shrunk by `margin` on all four sides (the packer's
initial free rectangle). -/
def innerContainer (chunkDimensions : Int × Int) (margin : Int) : Rect :=
  ⟨margin, margin, chunkDimensions.1 - 2 * margin, chunkDimensions.2 - 2 * margin⟩

/-! ### Part 2: ChunkManager and storage -/

/-- The persisted chunk record (`ChunkData`).  `lastAccessed` (a `Date`
in the source) is modelled as an integer timestamp supplied by the
caller as `now`. -/
structure ChunkData where
  coords : Int × Int
  uuid : String
  panes : List PaneData
  dimensions : Option (Int × Int)
  isLoaded : Bool
  lastAccessed : Int
deriving DecidableEq, Repr

/-- In-memory chunk bookkeeping (`ChunkHolder`).  The mounted Svelte
component and the per-pane component instances are UI state outside the
embedding; the persistence-relevant fields are the identifier and the
`paneData` map (pane-uuid keyed, insertion ordered). -/
structure ChunkHolder where
  uuid : String
  paneData : List (String × PaneData)
deriving DecidableEq, Repr

/-- `Map.get` of a JS `Map` modelled as an insertion-ordered assoc list. -/
def mapGet {κ α : Type} [DecidableEq κ] : List (κ × α) → κ → Option α
  | [], _ => none
  | e :: m, k => if e.1 = k then some e.2 else mapGet m k

/-- `Map.set` (or keyed object assignment): overwrite in place when the
key is present, append otherwise. -/
def mapSet {κ α : Type} [DecidableEq κ] : List (κ × α) → κ → α → List (κ × α)
  | [], k, v => [(k, v)]
  | e :: m, k, v => if e.1 = k then (k, v) :: m else e :: mapSet m k v

/-- `Map.delete`. -/
def mapDelete {κ α : Type} [DecidableEq κ] : List (κ × α) → κ → List (κ × α)
  | [], _ => []
  | e :: m, k => if e.1 = k then m else e :: mapDelete m k

/-- The storage key `"x,y"` used by the storage manager. -/
def coordKey (c : Int × Int) : String := toString c.1 ++ "," ++ toString c.2

/-- Combined state: the manager's nested `loadedChunks` map and the
key/value chunk store behind the storage manager. -/
structure ManagerState where
  loadedChunks : List (Int × List (Int × ChunkHolder))
  storage : List (String × ChunkData)
deriving DecidableEq, Repr

/-- The chunk holder materialized at a coordinate, if any
(`this.loadedChunks.get(x)?.get(y)`). -/
def chunkAt (s : ManagerState) (c : Int × Int) : Option ChunkHolder :=
  (mapGet s.loadedChunks c.1).bind (fun yMap => mapGet yMap c.2)

/-- `persistChunkToStorage`: write-through of a holder's current state
with `isLoaded = true`.  (The code wraps the save in try/catch, but the
browser store's save cannot throw in this model.) -/
def persistChunkToStorage (now : Int) (s : ManagerState) (coords : Int × Int)
    (holder : ChunkHolder) : ManagerState :=
  let chunkData : ChunkData :=
    ⟨coords, holder.uuid, holder.paneData.map (fun e => e.2), none, true, now⟩
  { s with storage := mapSet s.storage (coordKey coords) chunkData }

/-- `mountPane`: no-op unless the chunk is loaded; records the pane under
its uuid and persists the owning chunk.  (Mounting the Svelte `Pane`
component is UI state outside the embedding.) -/
def mountPane (now : Int) (s : ManagerState) (chunkCoords : Int × Int)
    (data : PaneData) : ManagerState :=
  match mapGet s.loadedChunks chunkCoords.1 with
  | none => s
  | some yMap =>
    match mapGet yMap chunkCoords.2 with
    | none => s
    | some holder =>
      let holder2 : ChunkHolder := ⟨holder.uuid, mapSet holder.paneData data.uuid data⟩
      let lc2 := mapSet s.loadedChunks chunkCoords.1 (mapSet yMap chunkCoords.2 holder2)
      let s1 := { s with loadedChunks := lc2 }
      persistChunkToStorage now s1 chunkCoords holder2

/-- Core of `load` with the storage-lookup outcome passed explicitly:
`Except.error` models the adapter throwing — which the code catches,
logging a warning and proceeding with a `null` record — and `Except.ok`
a returned record.  `fresh` stands for the `crypto.randomUUID()` value;
the returned `Option String` is the mounted chunk's uuid, `none` when
the coordinate was already loaded (the early `return null`).  The
per-pane try/catch of the restore loop has no failing case here because
the modelled `mountPane` is total. -/
def loadWithFetch (fetchResult : Except String (Option ChunkData)) (fresh : String)
    (now : Int) (s : ManagerState) (coords : Int × Int) : ManagerState × Option String :=
  let lc := if mapGet s.loadedChunks coords.1 = none then
      mapSet s.loadedChunks coords.1 [] else s.loadedChunks
  let yMap := (mapGet lc coords.1).getD []
  if mapGet yMap coords.2 ≠ none then ({ s with loadedChunks := lc }, none)
  else
    let storedChunkData : Option ChunkData := match fetchResult with
      | Except.error _ => none
      | Except.ok d => d
    let chunkUUID : String := match storedChunkData with
      | some d => d.uuid
      | none => fresh
    let lc2 := mapSet lc coords.1 (mapSet yMap coords.2 ⟨chunkUUID, []⟩)
    let s1 : ManagerState := { s with loadedChunks := lc2 }
    let s2 : ManagerState := match storedChunkData with
      | some d => d.panes.foldl (fun st p => mountPane now st coords p) s1
      | none => s1
    (s2, some chunkUUID)

/-- `load`: the storage lookup reads the current store (it does not throw
in the browser store model). -/
def ChunkManager.load (fresh : String) (now : Int) (s : ManagerState)
    (coords : Int × Int) : ManagerState × Option String :=
  loadWithFetch (Except.ok (mapGet s.storage (coordKey coords))) fresh now s coords

/-- `unload` with an explicit save outcome: `saveOk = false` models
`storageManager.saveChunk` throwing, which the code catches and logs
before proceeding to discard the chunk anyway.  The Boolean result
reports whether a loaded chunk was discarded (used to state the
idempotence property; the source returns nothing). -/
def unloadCore (saveOk : Bool) (now : Int) (s : ManagerState)
    (coords : Int × Int) : ManagerState × Bool :=
  match mapGet s.loadedChunks coords.1 with
  | none => (s, false)
  | some yMap =>
    match mapGet yMap coords.2 with
    | none => (s, false)
    | some holder =>
      let chunkData : ChunkData :=
        ⟨coords, holder.uuid, holder.paneData.map (fun e => e.2), none, false, now⟩
      let s1 : ManagerState :=
        if saveOk then { s with storage := mapSet s.storage (coordKey coords) chunkData }
        else s
      let yMap2 := mapDelete yMap coords.2
      let lc2 := if yMap2 = [] then mapDelete s1.loadedChunks coords.1
        else mapSet s1.loadedChunks coords.1 yMap2
      ({ s1 with loadedChunks := lc2 }, true)

/-- `unload`: persist a snapshot, then discard the in-memory entry. -/
def ChunkManager.unload (now : Int) (s : ManagerState) (coords : Int × Int) :
    ManagerState × Bool :=
  unloadCore true now s coords

/-- `Math.ceil(occurence / 2)`, negated for even `occurence`. -/
def sideOffset (occurence : Nat) : Int :=
  if occurence % 2 = 0 then -(((occurence + 1) / 2 : Nat) : Int)
  else (((occurence + 1) / 2 : Nat) : Int)

/-- The emitted offset per direction (the `switch` of `rotate`). -/
def rotOut (radius : Int) (direction : Nat) (so : Int) : Int × Int :=
  match direction with
  | 0 => (radius, so)
  | 1 => (-so, radius)
  | 2 => (-radius, -so)
  | 3 => (so, -radius)
  | _ => (0, 0)

/-- The recursive `rotate` of `ChunkManager`, as the list of offsets it
passes to its callback. -/
def rotate (direction occurence length : Nat) : List (Int × Int) :=
  let out := rotOut ((length / 2 : Nat) : Int) direction (sideOffset occurence)
  if direction + 1 > 3 then
    if occurence + 1 ≥ length - 1 then [out]
    else out :: rotate 0 (occurence + 1) length
  else
    if occurence ≥ length - 1 then [out]
    else out :: rotate (direction + 1) occurence length
termination_by (length - 1 - occurence) * 4 + (3 - direction)
decreasing_by
  · omega
  · omega

/-- The offsets emitted by the ring loop of `renderChunks`: rings
`i = 1 .. renderDistance+1` of side `(i-1)*2+1`. -/
def spiralOffsets (renderDistance : Nat) : List (Int × Int) :=
  (List.range (renderDistance + 1)).flatMap (fun r => rotate 0 0 (2 * r + 1))

/-- One load-pass iteration of `renderChunks`: offset the spiral
coordinate by the origin and `load` it, recording the coordinate when a
chunk was actually mounted (`load` returned non-null). -/
def loadStep (freshAt : Int × Int → String) (now : Int) (origin : Int × Int)
    (acc : ManagerState × List (Int × Int)) (off : Int × Int) :
    ManagerState × List (Int × Int) :=
  let c := (origin.1 + off.1, origin.2 + off.2)
  let r := ChunkManager.load (freshAt c) now acc.1 c
  (r.1, match r.2 with | none => acc.2 | some _ => acc.2 ++ [c])

/-- One eviction `unload` call, recording the coordinate when a loaded
chunk was actually discarded. -/
def unloadStep (now : Int) (x : Int) (acc : ManagerState × List (Int × Int))
    (ye : Int × ChunkHolder) : ManagerState × List (Int × Int) :=
  let r := ChunkManager.unload now acc.1 (x, ye.1)
  (r.1, if r.2 then acc.2 ++ [(x, ye.1)] else acc.2)

/-- The per-column body of the eviction scan: a column whose x-distance
exceeds the render distance is unloaded wholesale; otherwise only the
entries whose y-distance exceeds it. -/
def evictColumn (now : Int) (origin : Int × Int) (renderDistance : Nat)
    (acc : ManagerState × List (Int × Int)) (col : Int × List (Int × ChunkHolder)) :
    ManagerState × List (Int × Int) :=
  if |origin.1 - col.1| > (renderDistance : Int) then
    col.2.foldl (unloadStep now col.1) acc
  else
    col.2.foldl (fun acc2 ye =>
      if |origin.2 - ye.1| ≤ (renderDistance : Int) then acc2
      else unloadStep now col.1 acc2 ye) acc

/-- `renderChunks`: spiral load pass, then the two-phase per-axis
eviction scan over the loaded columns.  Besides the new state it returns
the coordinates actually loaded (`load` returned a chunk, not `null`)
and those actually unloaded, to state the idempotence property. -/
def renderChunks (freshAt : Int × Int → String) (now : Int) (s : ManagerState)
    (origin : Int × Int) (renderDistance : Nat) :
    ManagerState × List (Int × Int) × List (Int × Int) :=
  let loadPhase := (spiralOffsets renderDistance).foldl (loadStep freshAt now origin) (s, [])
  let s1 := loadPhase.1
  let evict := s1.loadedChunks.foldl (evictColumn now origin renderDistance) (s1, [])
  (evict.1, loadPhase.2, evict.2)

/-- Chebyshev distance between grid coordinates. -/
def cheb (a b : Int × Int) : Int := max |a.1 - b.1| |a.2 - b.2|

/-- Well-formedness of the nested loaded-chunk maps: no duplicate keys
(a JS `Map` cannot hold duplicates). -/
def WFCols (lc : List (Int × List (Int × ChunkHolder))) : Prop :=
  (lc.map (fun e => e.1)).Nodup ∧ ∀ col ∈ lc, (col.2.map (fun e => e.1)).Nodup

def WFState (s : ManagerState) : Prop := WFCols s.loadedChunks

/-- Well-formed holder bookkeeping: `paneData` keyed by the pane's own
uuid, without duplicates. -/
def WFHolder (h : ChunkHolder) : Prop :=
  (h.paneData.map (fun e => e.1)).Nodup ∧ ∀ e ∈ h.paneData, e.1 = e.2.uuid

/-- The coordinates a single column scan of the eviction pass unloads
(used to state the eviction fold's effect). -/
def colVictim (origin : Int × Int) (renderDistance : Nat)
    (col : Int × List (Int × ChunkHolder)) (c : Int × Int) : Prop :=
  c.1 = col.1 ∧
    (if |origin.1 - col.1| > (renderDistance : Int) then c.2 ∈ col.2.map (fun e => e.1)
     else c.2 ∈ (col.2.filter (fun ye =>
       !(decide (|origin.2 - ye.1| ≤ (renderDistance : Int))))).map (fun e => e.1))

/-- A concrete pane record for closed instances. -/
def samplePane : PaneData := ⟨"p1", "note", "", (0, 0), (0, 0), (100, 80), "", (0, 0, 0, 0)⟩

/-- A one-entry size lookup for closed packer instances. -/
def singlePaneMap (w h : Int) : String → Option PaneData :=
  fun u => if u = "a" then some ⟨"a", "note", "", (0, 0), (0, 0), (w, h), "", (0, 0, 0, 0)⟩
    else none

/-- Loop invariant of the placement loop (holds as long as `fitsWell` is
still `true`): free rectangles lie in the inner container and avoid all
padded footprints, footprints are pairwise disjoint and lie in the inner
container. -/
def PackInv (padding : Int) (container : Rect) (st : PackState) : Prop :=
  st.fitsWell = true →
    (∀ fr ∈ st.freeRects, RectSub fr container) ∧
    (∀ fr ∈ st.freeRects, ∀ p ∈ st.positions, RectDisjoint fr (footprint padding p)) ∧
    st.positions.Pairwise (fun p q => RectDisjoint (footprint padding p) (footprint padding q)) ∧
    (∀ p ∈ st.positions, RectSub (footprint padding p) container)

/-- The lattice points covered by a rectangle. -/
def rectPoints (r : Rect) : Finset (Int × Int) :=
  Finset.Ico r.x (r.x + r.width) ×ˢ Finset.Ico r.y (r.y + r.height)

/-- The four offsets one occurrence of the spiral emits (directions
`0..3` in order), used as closed form for `rotate`. -/
def ringSeg (rad : Int) (occ : Nat) : List (Int × Int) :=
  [rotOut rad 0 (sideOffset occ), rotOut rad 1 (sideOffset occ),
   rotOut rad 2 (sideOffset occ), rotOut rad 3 (sideOffset occ)]

/-- Closed form of a full ring traversal of radius `r ≥ 1`. -/
def ringList (r : Nat) : List (Int × Int) :=
  (List.range (2 * r)).flatMap (ringSeg (r : Int))

/-! ### Lemmas about the packer -/

theorem packStep_positions_pairs (padding margin : Int) (st : PackState) (pane : SizedPane) :
    (packStep padding margin st pane).positions.map (fun p => (p.uuid, p.size)) =
    st.positions.map (fun p => (p.uuid, p.size)) ++ [(pane.uuid, (pane.width, pane.height))] := by
  simp only [packStep]
  cases h : findBestRect st.freeRects (pane.width + padding) (pane.height + padding) with
  | none => simp
  | some x => obtain ⟨chosen, ss, ls⟩ := x; simp

theorem packFold_positions_pairs (padding margin : Int) :
    ∀ (panes : List SizedPane) (st : PackState),
    ((panes.foldl (packStep padding margin) st).positions.map (fun p => (p.uuid, p.size))) =
    st.positions.map (fun p => (p.uuid, p.size)) ++
      panes.map (fun pn => (pn.uuid, (pn.width, pn.height)))
  | [], st => by simp
  | pn :: panes, st => by
    rw [List.foldl_cons, packFold_positions_pairs padding margin panes _,
      packStep_positions_pairs]
    simp

theorem packed_size_eq (paneUuids : List String) (chunkDimensions : Int × Int)
    (dataMap : String → Option PaneData) (options : PaneLayoutOptions) (p : PanePosition)
    (hp : p ∈ (calculateMaxRectsLayout paneUuids chunkDimensions dataMap options).positions) :
    p.size = sizeFor dataMap options.minPaneSize p.uuid := by
  by_cases hnil : paneUuids = []
  · subst hnil
    simp [calculateMaxRectsLayout] at hp
  · have hpairs := packFold_positions_pairs options.padding options.margin
      (panesWithSizes paneUuids dataMap options.minPaneSize)
      ⟨[⟨options.margin, options.margin, chunkDimensions.1 - 2 * options.margin,
          chunkDimensions.2 - 2 * options.margin⟩], [], true⟩
    have hres : (calculateMaxRectsLayout paneUuids chunkDimensions dataMap options).positions =
        ((panesWithSizes paneUuids dataMap options.minPaneSize).foldl
          (packStep options.padding options.margin)
          ⟨[⟨options.margin, options.margin, chunkDimensions.1 - 2 * options.margin,
              chunkDimensions.2 - 2 * options.margin⟩], [], true⟩).positions := by
      simp [calculateMaxRectsLayout, hnil]
    have hperm : (panesWithSizes paneUuids dataMap options.minPaneSize).Perm
        (paneUuids.map (fun u => (⟨u, (sizeFor dataMap options.minPaneSize u).1,
          (sizeFor dataMap options.minPaneSize u).2⟩ : SizedPane))) :=
      List.perm_insertionSort _ _
    have hmem : (p.uuid, p.size) ∈
        (calculateMaxRectsLayout paneUuids chunkDimensions dataMap options).positions.map
          (fun p => (p.uuid, p.size)) := List.mem_map_of_mem _ hp
    rw [hres, hpairs] at hmem
    simp only [List.map_nil, List.nil_append, List.mem_map] at hmem
    obtain ⟨pn, hpn, hpq⟩ := hmem
    have hpn' : pn ∈ paneUuids.map (fun u => (⟨u, (sizeFor dataMap options.minPaneSize u).1,
        (sizeFor dataMap options.minPaneSize u).2⟩ : SizedPane)) := hperm.mem_iff.mp hpn
    simp only [List.mem_map] at hpn'
    obtain ⟨u, _, hu⟩ := hpn'
    have h1 : p.uuid = pn.uuid := (congrArg Prod.fst hpq).symm
    have h2 : p.size = (pn.width, pn.height) := (congrArg Prod.snd hpq).symm
    rw [h2, h1, ← hu]

/-- C10: every requested uuid receives exactly one placement (as a
multiset the output uuids are the input uuids), and each placement's size
is the looked-up size when positive, `minPaneSize` otherwise — the packer
never rescales. -/
theorem packer_placements_complete (paneUuids : List String) (chunkDimensions : Int × Int)
    (dataMap : String → Option PaneData) (options : PaneLayoutOptions) :
    ((calculateMaxRectsLayout paneUuids chunkDimensions dataMap options).positions.map
      (fun p => p.uuid)).Perm paneUuids ∧
    ∀ p ∈ (calculateMaxRectsLayout paneUuids chunkDimensions dataMap options).positions,
      p.size = sizeFor dataMap options.minPaneSize p.uuid := by
  by_cases h : paneUuids = []
  · subst h
    simp [calculateMaxRectsLayout]
  · have hpairs := packFold_positions_pairs options.padding options.margin
      (panesWithSizes paneUuids dataMap options.minPaneSize)
      ⟨[⟨options.margin, options.margin, chunkDimensions.1 - 2 * options.margin,
          chunkDimensions.2 - 2 * options.margin⟩], [], true⟩
    have hres : (calculateMaxRectsLayout paneUuids chunkDimensions dataMap options).positions =
        ((panesWithSizes paneUuids dataMap options.minPaneSize).foldl
          (packStep options.padding options.margin)
          ⟨[⟨options.margin, options.margin, chunkDimensions.1 - 2 * options.margin,
              chunkDimensions.2 - 2 * options.margin⟩], [], true⟩).positions := by
      simp [calculateMaxRectsLayout, h]
    have hperm : (panesWithSizes paneUuids dataMap options.minPaneSize).Perm
        (paneUuids.map (fun u => (⟨u, (sizeFor dataMap options.minPaneSize u).1,
          (sizeFor dataMap options.minPaneSize u).2⟩ : SizedPane))) :=
      List.perm_insertionSort _ _
    constructor
    · have h1 : (calculateMaxRectsLayout paneUuids chunkDimensions dataMap options).positions.map
          (fun p => p.uuid) =
          (panesWithSizes paneUuids dataMap options.minPaneSize).map (fun pn => pn.uuid) := by
        have := congrArg (fun l => l.map (fun q : String × (Int × Int) => q.1)) hpairs
        simp only [List.map_map] at this
        rw [hres]
        simpa using this
      rw [h1]
      refine (hperm.map (fun pn : SizedPane => pn.uuid)).trans ?_
      rw [List.map_map]
      have h3 : ((fun pn : SizedPane => pn.uuid) ∘ fun u =>
          (⟨u, (sizeFor dataMap options.minPaneSize u).1,
            (sizeFor dataMap options.minPaneSize u).2⟩ : SizedPane)) = fun u => u := rfl
      rw [h3, List.map_id']
    · exact fun p hp => packed_size_eq paneUuids chunkDimensions dataMap options p hp

theorem packStep_fitsWell_false (padding margin : Int) (st : PackState) (pane : SizedPane)
    (h : st.fitsWell = false) : (packStep padding margin st pane).fitsWell = false := by
  simp only [packStep]
  cases hf : findBestRect st.freeRects (pane.width + padding) (pane.height + padding) with
  | none => simp
  | some x => obtain ⟨chosen, ss, ls⟩ := x; simpa using h


/-- C8: when no free rectangle fits an item, the step marks `allFit`
false (which the rest of the loop never resets) and appends a fallback
placement at `x = margin` and `y` beneath the lowest previously placed
bottom edge plus padding — at `(margin, margin)` when nothing was placed;
concretely, a single 2000×2000 item in a 100×100 container with default
options gives `allFit = false` and a placement at `(16, 16)`. -/
theorem packer_fallback_stacking :
    (∀ (padding margin : Int) (st : PackState) (pane : SizedPane),
      findBestRect st.freeRects (pane.width + padding) (pane.height + padding) = none →
      packStep padding margin st pane =
        ⟨st.freeRects,
         st.positions ++ [⟨pane.uuid, (margin, fallbackY padding margin st.positions),
           (pane.width, pane.height)⟩], false⟩) ∧
    (∀ (padding margin : Int) (panes : List SizedPane) (st : PackState),
      st.fitsWell = false → (panes.foldl (packStep padding margin) st).fitsWell = false) ∧
    ((calculateMaxRectsLayout ["a"] (100, 100) (singlePaneMap 2000 2000) {}).fitsWell = false ∧
     (calculateMaxRectsLayout ["a"] (100, 100) (singlePaneMap 2000 2000) {}).positions =
       [⟨"a", (16, 16), (2000, 2000)⟩]) := by
  refine ⟨?_, ?_, by decide, by decide⟩
  · intro padding margin st pane h
    simp only [packStep]
    rw [h]
  · intro padding margin panes
    induction panes with
    | nil => intro st h; simpa using h
    | cons pn panes ih =>
      intro st h
      rw [List.foldl_cons]
      exact ih _ (packStep_fitsWell_false _ _ _ _ h)

theorem packer_fallback_stacking_witness :
    findBestRect (PackState.mk [] [] true).freeRects ((5 : Int) + 8) ((5 : Int) + 8) = none ∧
    packStep 8 16 ⟨[], [], true⟩ ⟨"a", 5, 5⟩ = ⟨[], [⟨"a", (16, 16), (5, 5)⟩], false⟩ :=
  ⟨rfl, by
    have h := packer_fallback_stacking.1 8 16 ⟨[], [], true⟩ ⟨"a", 5, 5⟩ rfl
    simpa [fallbackY] using h⟩

/-- C5 counterexample: a single 2000×2000 item packed into a 100×100
container (default options) yields `utilization = 400 > 1`, because the
fallback placement of a non-fitting item still counts toward the placed
area. -/
theorem packer_utilization_above_one :
    1 < (calculateMaxRectsLayout ["a"] (100, 100) (singlePaneMap 2000 2000) {}).utilization := by
  decide

/-! ### Lemmas about the chunk manager -/

/-- C9: `mountPane` on an unloaded chunk coordinate leaves the whole
state untouched — no chunk is created, no bookkeeping changes, nothing
is written to storage. -/
theorem mountPane_unloaded_noop (now : Int) (s : ManagerState) (chunkCoords : Int × Int)
    (data : PaneData) (h : chunkAt s chunkCoords = none) :
    mountPane now s chunkCoords data = s := by
  unfold chunkAt at h
  cases hx : mapGet s.loadedChunks chunkCoords.1 with
  | none => simp [mountPane, hx]
  | some yMap =>
    rw [hx, Option.some_bind] at h
    simp [mountPane, hx, h]

theorem mountPane_unloaded_noop_witness :
    chunkAt ⟨[], []⟩ (0, 0) = none ∧ mountPane 0 ⟨[], []⟩ (0, 0) samplePane = ⟨[], []⟩ :=
  ⟨rfl, mountPane_unloaded_noop 0 ⟨[], []⟩ (0, 0) samplePane rfl⟩

/-- C4 counterexample: when the storage lookup at the start of `load`
throws, the failure does not propagate — `load` completes and adopts a
brand-new chunk (fresh identifier, empty pane set) at the coordinate. -/
theorem load_storage_error_creates_chunk :
    (loadWithFetch (Except.error "storage failure") "fresh-uuid" 0 ⟨[], []⟩ (0, 0)).2 =
      some "fresh-uuid" ∧
    chunkAt (loadWithFetch (Except.error "storage failure") "fresh-uuid" 0
      ⟨[], []⟩ (0, 0)).1 (0, 0) = some ⟨"fresh-uuid", []⟩ :=
  ⟨rfl, rfl⟩

/-- C4 amended: storage failures are caught and logged, never surfaced:
a throwing lookup makes `load` behave exactly as if the chunk were
absent (fabricating a fresh chunk), and a throwing save during `unload`
still discards the in-memory chunk, leaving storage unchanged. -/
theorem storage_errors_caught :
    (∀ (e fresh : String) (now : Int) (s : ManagerState) (coords : Int × Int),
      loadWithFetch (Except.error e) fresh now s coords =
      loadWithFetch (Except.ok none) fresh now s coords) ∧
    (∀ (now : Int) (s : ManagerState) (coords : Int × Int),
      (unloadCore false now s coords).1.loadedChunks =
        (ChunkManager.unload now s coords).1.loadedChunks ∧
      (unloadCore false now s coords).1.storage = s.storage ∧
      (unloadCore false now s coords).2 = (ChunkManager.unload now s coords).2) := by
  constructor
  · intro e fresh now s coords
    rfl
  · intro now s coords
    cases hx : mapGet s.loadedChunks coords.1 with
    | none => simp [ChunkManager.unload, unloadCore, hx]
    | some yMap =>
      cases hy : mapGet yMap coords.2 with
      | none => simp [ChunkManager.unload, unloadCore, hx, hy]
      | some holder => simp [ChunkManager.unload, unloadCore, hx, hy]

/-! ### The spiral traversal -/

theorem sideOffset_even (k : Nat) : sideOffset (2 * k) = -(k : Int) := by
  unfold sideOffset
  have h1 : (2 * k) % 2 = 0 := by omega
  have h2 : (2 * k + 1) / 2 = k := by omega
  rw [if_pos h1, h2]

theorem sideOffset_odd (k : Nat) : sideOffset (2 * k + 1) = (k : Int) + 1 := by
  unfold sideOffset
  have h1 : ¬ (2 * k + 1) % 2 = 0 := by omega
  have h2 : (2 * k + 1 + 1) / 2 = k + 1 := by omega
  rw [if_neg h1, h2]
  push_cast
  ring

theorem sideOffset_inj (a b : Nat) (h : sideOffset a = sideOffset b) : a = b := by
  rcases Nat.even_or_odd a with ⟨ka, hka⟩ | ⟨ka, hka⟩ <;>
    rcases Nat.even_or_odd b with ⟨kb, hkb⟩ | ⟨kb, hkb⟩ <;>
      subst hka <;> subst hkb
  · rw [show ka + ka = 2 * ka by omega, show kb + kb = 2 * kb by omega,
      sideOffset_even, sideOffset_even] at h
    omega
  · rw [show ka + ka = 2 * ka by omega, sideOffset_even, sideOffset_odd] at h
    omega
  · rw [show kb + kb = 2 * kb by omega, sideOffset_odd, sideOffset_even] at h
    omega
  · rw [sideOffset_odd, sideOffset_odd] at h
    omega

theorem sideOffset_bounds (occ r : Nat) (h : occ < 2 * r) :
    -(r : Int) + 1 ≤ sideOffset occ ∧ sideOffset occ ≤ (r : Int) := by
  rcases Nat.even_or_odd occ with ⟨k, hk⟩ | ⟨k, hk⟩ <;> subst hk
  · rw [show k + k = 2 * k by omega, sideOffset_even]
    omega
  · rw [sideOffset_odd]
    omega

theorem sideOffset_surj (r : Nat) (v : Int) (h1 : -(r : Int) + 1 ≤ v) (h2 : v ≤ (r : Int)) :
    ∃ occ, occ < 2 * r ∧ sideOffset occ = v := by
  rcases le_or_lt v 0 with hv | hv
  · refine ⟨2 * (-v).toNat, by omega, ?_⟩
    rw [sideOffset_even]
    omega
  · refine ⟨2 * (v - 1).toNat + 1, by omega, ?_⟩
    rw [sideOffset_odd]
    omega

theorem rotate_d (d occ length : Nat) (hd : d + 1 ≤ 3) (h : ¬ occ ≥ length - 1) :
    rotate d occ length =
      rotOut ((length / 2 : Nat) : Int) d (sideOffset occ) :: rotate (d + 1) occ length := by
  rw [rotate]
  simp only [if_neg (by omega : ¬ d + 1 > 3), if_neg h]

theorem rotate_three_stop (occ length : Nat) (h : occ + 1 ≥ length - 1) :
    rotate 3 occ length = [rotOut ((length / 2 : Nat) : Int) 3 (sideOffset occ)] := by
  rw [rotate]
  simp only [if_pos (by omega : 3 + 1 > 3), if_pos h]

theorem rotate_three_cont (occ length : Nat) (h : ¬ occ + 1 ≥ length - 1) :
    rotate 3 occ length =
      rotOut ((length / 2 : Nat) : Int) 3 (sideOffset occ) :: rotate 0 (occ + 1) length := by
  rw [rotate]
  simp only [if_pos (by omega : 3 + 1 > 3), if_neg h]

theorem rotate_step (r occ : Nat) (hr : 1 ≤ r) (h : occ < 2 * r) :
    rotate 0 occ (2 * r + 1) = ringSeg (r : Int) occ ++
      (if occ + 1 < 2 * r then rotate 0 (occ + 1) (2 * r + 1) else []) := by
  have hlen : 2 * r + 1 - 1 = 2 * r := by omega
  have hdiv : (2 * r + 1) / 2 = r := by omega
  have hno : ¬ occ ≥ 2 * r + 1 - 1 := by omega
  rw [rotate_d 0 occ _ (by omega) hno, rotate_d 1 occ _ (by omega) hno,
    rotate_d 2 occ _ (by omega) hno]
  by_cases hc : occ + 1 < 2 * r
  · rw [rotate_three_cont occ _ (by omega), if_pos hc, hdiv]
    rfl
  · rw [rotate_three_stop occ _ (by omega), if_neg hc, hdiv]
    rfl

theorem rotate_ring (r : Nat) (hr : 1 ≤ r) :
    ∀ (k occ : Nat), occ + k = 2 * r → 1 ≤ k →
      rotate 0 occ (2 * r + 1) = (List.range' occ k).flatMap (ringSeg (r : Int)) := by
  intro k
  induction k with
  | zero => omega
  | succ k ih =>
    intro occ hsum hk1
    have hocc : occ < 2 * r := by omega
    rcases Nat.eq_zero_or_pos k with h0 | hpos
    · subst h0
      rw [rotate_step r occ hr hocc, if_neg (by omega)]
      simp [List.range'_succ]
    · rw [rotate_step r occ hr hocc, if_pos (by omega),
        ih (occ + 1) (by omega) (by omega), List.range'_succ]
      simp

theorem rotate_ringList (r : Nat) (hr : 1 ≤ r) : rotate 0 0 (2 * r + 1) = ringList r := by
  rw [ringList, List.range_eq_range']
  exact rotate_ring r hr (2 * r) 0 (by omega) (by omega)

theorem rotate_center : rotate 0 0 1 = [(0, 0)] := by
  rw [rotate]
  norm_num [rotOut, sideOffset]

theorem mem_ringSeg_cheb (r : Nat) (occ : Nat) (h : occ < 2 * r)
    (p : Int × Int) (hp : p ∈ ringSeg (r : Int) occ) : cheb p (0, 0) = (r : Int) := by
  have hb := sideOffset_bounds occ r h
  have hr0 : (0 : Int) ≤ (r : Int) := Int.natCast_nonneg r
  simp only [ringSeg, rotOut, List.mem_cons, List.mem_singleton, List.not_mem_nil,
    or_false] at hp
  rcases hp with h1 | h1 | h1 | h1 <;> subst h1 <;> simp only [cheb, sub_zero]
  · rw [abs_of_nonneg hr0]
    exact max_eq_left (abs_le.mpr ⟨by omega, by omega⟩)
  · rw [abs_of_nonneg hr0, abs_neg]
    exact max_eq_right (abs_le.mpr ⟨by omega, by omega⟩)
  · rw [abs_neg, abs_neg, abs_of_nonneg hr0]
    exact max_eq_left (abs_le.mpr ⟨by omega, by omega⟩)
  · rw [abs_neg, abs_of_nonneg hr0]
    exact max_eq_right (abs_le.mpr ⟨by omega, by omega⟩)

theorem cheb_mem_ringList (r : Nat) (hr : 1 ≤ r) (p : Int × Int)
    (h : cheb p (0, 0) = (r : Int)) : p ∈ ringList r := by
  obtain ⟨x, y⟩ := p
  simp only [cheb, sub_zero] at h
  have hr0 : (0 : Int) ≤ (r : Int) := Int.natCast_nonneg r
  have hx : |x| ≤ (r : Int) := h ▸ le_max_left _ _
  have hy : |y| ≤ (r : Int) := h ▸ le_max_right _ _
  have hxb := abs_le.mp hx
  have hyb := abs_le.mp hy
  have hor : |x| = (r : Int) ∨ |y| = (r : Int) := by
    rcases max_choice |x| |y| with h1 | h1
    · exact Or.inl (h1 ▸ h)
    · exact Or.inr (h1 ▸ h)
  by_cases hxr : x = (r : Int)
  · by_cases hyc : -(r : Int) + 1 ≤ y
    · obtain ⟨occ, hocc, hso⟩ := sideOffset_surj r y hyc (by omega)
      refine List.mem_flatMap.mpr ⟨occ, List.mem_range.mpr hocc, ?_⟩
      simp only [ringSeg, rotOut, List.mem_cons, List.mem_singleton, Prod.mk.injEq]
      omega
    · have hyy : y = -(r : Int) := by
        rcases hor with h1 | h1
        · omega
        · rcases (abs_eq hr0).mp h1 with h2 | h2 <;> omega
      obtain ⟨occ, hocc, hso⟩ := sideOffset_surj r x (by omega) (by omega)
      refine List.mem_flatMap.mpr ⟨occ, List.mem_range.mpr hocc, ?_⟩
      simp only [ringSeg, rotOut, List.mem_cons, List.mem_singleton, Prod.mk.injEq]
      omega
  · by_cases hxl : x = -(r : Int)
    · by_cases hyc : y ≤ (r : Int) - 1
      · obtain ⟨occ, hocc, hso⟩ := sideOffset_surj r (-y) (by omega) (by omega)
        refine List.mem_flatMap.mpr ⟨occ, List.mem_range.mpr hocc, ?_⟩
        simp only [ringSeg, rotOut, List.mem_cons, List.mem_singleton, Prod.mk.injEq]
        omega
      · have hyy : y = (r : Int) := by omega
        obtain ⟨occ, hocc, hso⟩ := sideOffset_surj r (-x) (by omega) (by omega)
        refine List.mem_flatMap.mpr ⟨occ, List.mem_range.mpr hocc, ?_⟩
        simp only [ringSeg, rotOut, List.mem_cons, List.mem_singleton, Prod.mk.injEq]
        omega
    · have hyr : |y| = (r : Int) := by
        rcases hor with h1 | h1
        · rcases (abs_eq hr0).mp h1 with h2 | h2 <;> omega
        · exact h1
      rcases (abs_eq hr0).mp hyr with hyy | hyy
      · obtain ⟨occ, hocc, hso⟩ := sideOffset_surj r (-x) (by omega) (by omega)
        refine List.mem_flatMap.mpr ⟨occ, List.mem_range.mpr hocc, ?_⟩
        simp only [ringSeg, rotOut, List.mem_cons, List.mem_singleton, Prod.mk.injEq]
        omega
      · obtain ⟨occ, hocc, hso⟩ := sideOffset_surj r x (by omega) (by omega)
        refine List.mem_flatMap.mpr ⟨occ, List.mem_range.mpr hocc, ?_⟩
        simp only [ringSeg, rotOut, List.mem_cons, List.mem_singleton, Prod.mk.injEq]
        omega

theorem ringSeg_nodup (r : Nat) (hr : 1 ≤ r) (occ : Nat) (h : occ < 2 * r) :
    (ringSeg (r : Int) occ).Nodup := by
  have hb := sideOffset_bounds occ r h
  simp only [ringSeg, rotOut, List.nodup_cons, List.mem_cons, List.mem_singleton,
    List.not_mem_nil, or_false, List.nodup_nil, and_true, Prod.mk.injEq, not_or, not_and,
    not_false_eq_true]
  omega

theorem ringSeg_disjoint (r : Nat) (hr : 1 ≤ r) (a b : Nat) (ha : a < 2 * r)
    (hb : b < 2 * r) (hab : a ≠ b) :
    (ringSeg (r : Int) a).Disjoint (ringSeg (r : Int) b) := by
  intro p hpa hpb
  have hba := sideOffset_bounds a r ha
  have hbb := sideOffset_bounds b r hb
  have hinj : ¬ sideOffset a = sideOffset b := fun hh => hab (sideOffset_inj a b hh)
  obtain ⟨x, y⟩ := p
  simp only [ringSeg, rotOut, List.mem_cons, List.mem_singleton, List.not_mem_nil,
    or_false, Prod.mk.injEq] at hpa hpb
  omega

theorem ringList_nodup (r : Nat) (hr : 1 ≤ r) : (ringList r).Nodup := by
  rw [ringList, List.nodup_flatMap]
  refine ⟨fun occ hocc => ringSeg_nodup r hr occ (List.mem_range.mp hocc), ?_⟩
  refine List.Pairwise.imp_of_mem ?_ (List.pairwise_lt_range (2 * r))
  intro a b ha hb hlt
  exact ringSeg_disjoint r hr a b (List.mem_range.mp ha) (List.mem_range.mp hb)
    (Nat.ne_of_lt hlt)

theorem ringList_length (r : Nat) : (ringList r).length = 8 * r := by
  rw [ringList, List.length_flatMap]
  have h4 : (List.map (fun a => (ringSeg (r : Int) a).length) (List.range (2 * r))) =
      List.replicate (2 * r) 4 := by
    rw [List.eq_replicate_iff]
    refine ⟨by simp, fun b hb => ?_⟩
    simp only [List.mem_map] at hb
    obtain ⟨occ, _, hocc⟩ := hb
    simp [ringSeg] at hocc
    omega
  simp only [Function.comp_def] at h4 ⊢
  rw [h4, List.sum_replicate]
  simp
  omega

theorem rotate_full (r : Nat) :
    rotate 0 0 (2 * r + 1) = if r = 0 then [(0, 0)] else ringList r := by
  by_cases h0 : r = 0
  · subst h0
    rw [if_pos rfl]
    exact rotate_center
  · rw [if_neg h0]
    exact rotate_ringList r (by omega)

theorem mem_rotate_cheb (r : Nat) (p : Int × Int) :
    p ∈ rotate 0 0 (2 * r + 1) ↔ cheb p (0, 0) = (r : Int) := by
  rw [rotate_full]
  by_cases h0 : r = 0
  · subst h0
    rw [if_pos rfl]
    obtain ⟨x, y⟩ := p
    simp only [List.mem_singleton, Prod.mk.injEq, cheb, sub_zero, Nat.cast_zero]
    constructor
    · rintro ⟨hx, hy⟩
      subst hx; subst hy
      simp
    · intro h
      have hx : |x| ≤ 0 := h ▸ le_max_left _ _
      have hy : |y| ≤ 0 := h ▸ le_max_right _ _
      exact ⟨abs_eq_zero.mp (le_antisymm hx (abs_nonneg x)),
        abs_eq_zero.mp (le_antisymm hy (abs_nonneg y))⟩
  · rw [if_neg h0]
    constructor
    · intro hp
      obtain ⟨occ, hocc, hmem⟩ := List.mem_flatMap.mp hp
      exact mem_ringSeg_cheb r occ (List.mem_range.mp hocc) p hmem
    · exact cheb_mem_ringList r (by omega) p

theorem rotate_length (r : Nat) :
    (rotate 0 0 (2 * r + 1)).length = if r = 0 then 1 else 8 * r := by
  rw [rotate_full]
  by_cases h0 : r = 0
  · rw [if_pos h0, if_pos h0]
    rfl
  · rw [if_neg h0, if_neg h0]
    exact ringList_length r

theorem spiralOffsets_nodup (R : Nat) : (spiralOffsets R).Nodup := by
  rw [spiralOffsets, List.nodup_flatMap]
  constructor
  · intro r hr
    rw [rotate_full]
    by_cases h0 : r = 0
    · rw [if_pos h0]
      simp
    · rw [if_neg h0]
      exact ringList_nodup r (by omega)
  · refine List.Pairwise.imp_of_mem ?_ (List.pairwise_lt_range (R + 1))
    intro a b ha hb hlt p hpa hpb
    have h1 := (mem_rotate_cheb a p).mp hpa
    have h2 := (mem_rotate_cheb b p).mp hpb
    rw [h1] at h2
    exact absurd (Nat.cast_injective h2) (Nat.ne_of_lt hlt)

theorem spiralOffsets_mem (R : Nat) (p : Int × Int) :
    p ∈ spiralOffsets R ↔ cheb p (0, 0) ≤ (R : Int) := by
  have hcheb0 : 0 ≤ cheb p (0, 0) := le_trans (abs_nonneg _) (le_max_left _ _)
  rw [spiralOffsets, List.mem_flatMap]
  constructor
  · rintro ⟨r, hr, hmem⟩
    have hcr := (mem_rotate_cheb r p).mp hmem
    rw [hcr]
    exact_mod_cast Nat.le_of_lt_succ (List.mem_range.mp hr)
  · intro h
    refine ⟨(cheb p (0, 0)).toNat, List.mem_range.mpr (by omega), ?_⟩
    rw [mem_rotate_cheb]
    rw [Int.toNat_of_nonneg hcheb0]

theorem spiralOffsets_length (R : Nat) : (spiralOffsets R).length = (2 * R + 1) ^ 2 := by
  rw [spiralOffsets, List.length_flatMap]
  have key : ∀ n : Nat, ((List.range (n + 1)).map
      (fun r => (rotate 0 0 (2 * r + 1)).length)).sum = (2 * n + 1) ^ 2 := by
    intro n
    induction n with
    | zero => simp [rotate_length, List.range_succ]
    | succ n ih =>
      rw [List.range_succ (n + 1), List.map_append, List.sum_append, ih]
      have h1 : (2 * (n + 1) + 1) ^ 2 = (2 * n + 1) ^ 2 + (8 * (n + 1)) := by ring
      rw [h1]
      simp [rotate_length]
  simp only [Function.comp_def]
  exact key R

/-- C2: the square-spiral traversal (rings `i = 1..R+1`, side
`L = 2(i-1)+1`, the recursion stopping once `occurence ≥ L-1`) emits
exactly the offsets of Chebyshev distance at most `R`, each exactly once,
`(2R+1)²` in total. -/
theorem spiral_coverage (R : Nat) :
    (spiralOffsets R).Nodup ∧
    (∀ p : Int × Int, p ∈ spiralOffsets R ↔ cheb p (0, 0) ≤ (R : Int)) ∧
    (spiralOffsets R).length = (2 * R + 1) ^ 2 :=
  ⟨spiralOffsets_nodup R, fun p => spiralOffsets_mem R p, spiralOffsets_length R⟩

/-! ### Geometry of the placement loop -/

theorem redundantStep_sublist (l : List Rect) (i : Nat) :
    List.Sublist (redundantStep l i) l := by
  unfold redundantStep
  split
  · exact List.Sublist.refl l
  · split
    · exact List.eraseIdx_sublist l i
    · exact List.Sublist.refl l

theorem foldl_redundantStep_sublist :
    ∀ (idxs : List Nat) (l : List Rect), List.Sublist (idxs.foldl redundantStep l) l
  | [], l => List.Sublist.refl l
  | i :: idxs, l =>
    List.Sublist.trans (foldl_redundantStep_sublist idxs (redundantStep l i))
      (redundantStep_sublist l i)

theorem removeRedundant_mem (l : List Rect) (r : Rect)
    (h : r ∈ removeRedundantRectangles l) : r ∈ l := by
  unfold removeRedundantRectangles at h
  exact (foldl_redundantStep_sublist _ l).subset h

theorem considerRect_cases (rqw rqh : Int) (acc : Option (Rect × Int × Int)) (a : Rect)
    (x : Rect) (ss ls : Int) (h : considerRect rqw rqh acc a = some (x, ss, ls)) :
    (x = a ∧ rqw ≤ a.width ∧ rqh ≤ a.height) ∨ acc = some (x, ss, ls) := by
  simp only [considerRect] at h
  split at h
  next hfit =>
    split at h
    next =>
      simp only [Option.some.injEq, Prod.mk.injEq] at h
      exact Or.inl ⟨h.1.symm, hfit⟩
    next br bss bls =>
      split at h
      next =>
        simp only [Option.some.injEq, Prod.mk.injEq] at h
        exact Or.inl ⟨h.1.symm, hfit⟩
      next => exact Or.inr h
  next => exact Or.inr h

theorem considerRect_good (rqw rqh : Int) (l0 : List Rect) :
    ∀ (l : List Rect), (∀ r ∈ l, r ∈ l0) →
    ∀ (acc : Option (Rect × Int × Int)),
      (∀ x ss ls, acc = some (x, ss, ls) → x ∈ l0 ∧ rqw ≤ x.width ∧ rqh ≤ x.height) →
      ∀ x ss ls, l.foldl (considerRect rqw rqh) acc = some (x, ss, ls) →
        x ∈ l0 ∧ rqw ≤ x.width ∧ rqh ≤ x.height := by
  intro l
  induction l with
  | nil =>
    intro _ acc hacc x ss ls h
    exact hacc x ss ls h
  | cons a l ih =>
    intro hsub acc hacc x ss ls h
    rw [List.foldl_cons] at h
    refine ih (fun r hr => hsub r (List.mem_cons_of_mem a hr)) _ ?_ x ss ls h
    intro x' ss' ls' hx'
    rcases considerRect_cases rqw rqh acc a x' ss' ls' hx' with ⟨h1, h2, h3⟩ | hacc'
    · subst h1
      exact ⟨hsub x' (List.mem_cons_self x' l), h2, h3⟩
    · exact hacc x' ss' ls' hacc'

theorem findBestRect_some (freeRects : List Rect) (rqw rqh : Int) (x : Rect) (ss ls : Int)
    (h : findBestRect freeRects rqw rqh = some (x, ss, ls)) :
    x ∈ freeRects ∧ rqw ≤ x.width ∧ rqh ≤ x.height :=
  considerRect_good rqw rqh freeRects freeRects (fun _ hr => hr) none (by simp) x ss ls h

theorem not_overlapsRect_disjoint (f p : Rect) (h : ¬ overlapsRect f p) : RectDisjoint f p := by
  intro q hq
  obtain ⟨hf, hp⟩ := hq
  unfold overlapsRect at h
  rw [not_not] at h
  unfold inRect at hf hp
  rcases h with h1 | h1 | h1 | h1 <;> omega

theorem mem_ite_singleton {c : Prop} [Decidable c] (a r : Rect) :
    r ∈ (if c then [a] else ([] : List Rect)) ↔ c ∧ r = a := by
  by_cases h : c <;> simp [h]

theorem mem_clipRectangle (f p r : Rect) (hr : r ∈ clipRectangle f p) :
    (f.x < p.x ∧ r = ⟨f.x, f.y, p.x - f.x, f.height⟩) ∨
    (p.x + p.width < f.x + f.width ∧
      r = ⟨p.x + p.width, f.y, f.x + f.width - (p.x + p.width), f.height⟩) ∨
    (f.y < p.y ∧ r = ⟨f.x, f.y, f.width, p.y - f.y⟩) ∨
    (p.y + p.height < f.y + f.height ∧
      r = ⟨f.x, p.y + p.height, f.width, f.y + f.height - (p.y + p.height)⟩) := by
  unfold clipRectangle at hr
  rw [List.mem_filter] at hr
  obtain ⟨hmem, _⟩ := hr
  simp only [List.mem_append, mem_ite_singleton] at hmem
  tauto

theorem clipRectangle_sub (f p r : Rect) (hov : overlapsRect f p)
    (hr : r ∈ clipRectangle f p) : RectSub r f := by
  unfold overlapsRect at hov
  intro q hq
  unfold inRect at hq ⊢
  rcases mem_clipRectangle f p r hr with ⟨h1, h2⟩ | ⟨h1, h2⟩ | ⟨h1, h2⟩ | ⟨h1, h2⟩ <;>
    subst h2 <;> simp only at hq <;> omega

theorem clipRectangle_disjoint (f p r : Rect) (hr : r ∈ clipRectangle f p) :
    RectDisjoint r p := by
  intro q hq
  obtain ⟨hqr, hqp⟩ := hq
  unfold inRect at hqr hqp
  rcases mem_clipRectangle f p r hr with ⟨h1, h2⟩ | ⟨h1, h2⟩ | ⟨h1, h2⟩ | ⟨h1, h2⟩ <;>
    subst h2 <;> simp only at hqr <;> omega

theorem itemRect_sub_footprint (padding : Int) (hpad : 0 ≤ padding) (p : PanePosition) :
    RectSub (itemRect p) (footprint padding p) := by
  intro q hq
  simp only [inRect, itemRect, footprint] at hq ⊢
  omega

theorem packStep_eq_none (padding margin : Int) (st : PackState) (pane : SizedPane)
    (hb : findBestRect st.freeRects (pane.width + padding) (pane.height + padding) = none) :
    packStep padding margin st pane =
      ⟨st.freeRects,
       st.positions ++ [⟨pane.uuid, (margin, fallbackY padding margin st.positions),
         (pane.width, pane.height)⟩], false⟩ := by
  simp only [packStep]
  rw [hb]

theorem packStep_eq_some (padding margin : Int) (st : PackState) (pane : SizedPane)
    (chosen : Rect) (ss ls : Int)
    (hb : findBestRect st.freeRects (pane.width + padding) (pane.height + padding) =
      some (chosen, ss, ls)) :
    packStep padding margin st pane =
      ⟨removeRedundantRectangles (st.freeRects.flatMap (fun freeRect =>
          if overlapsRect freeRect
              ⟨chosen.x, chosen.y, pane.width + padding, pane.height + padding⟩ then
            clipRectangle freeRect
              ⟨chosen.x, chosen.y, pane.width + padding, pane.height + padding⟩
          else [freeRect])),
       st.positions ++ [⟨pane.uuid, (chosen.x, chosen.y), (pane.width, pane.height)⟩],
       st.fitsWell⟩ := by
  simp only [packStep]
  rw [hb]

theorem packStep_inv (padding margin : Int) (container : Rect) (st : PackState)
    (pane : SizedPane) (hinv : PackInv padding container st) :
    PackInv padding container (packStep padding margin st pane) := by
  cases hb : findBestRect st.freeRects (pane.width + padding) (pane.height + padding) with
  | none =>
    intro hfw
    rw [packStep_eq_none padding margin st pane hb] at hfw
    exact absurd hfw (by simp)
  | some x =>
    obtain ⟨chosen, ss, ls⟩ := x
    rw [packStep_eq_some padding margin st pane chosen ss ls hb]
    intro hfw
    replace hfw : st.fitsWell = true := hfw
    obtain ⟨I1, I2, I3, I4⟩ := hinv hfw
    obtain ⟨hcmem, hcw, hch⟩ := findBestRect_some st.freeRects _ _ chosen ss ls hb
    set placed : Rect := ⟨chosen.x, chosen.y, pane.width + padding, pane.height + padding⟩
      with hplaced
    have hplacedsub : RectSub placed chosen := by
      intro q hq
      simp only [inRect, hplaced] at hq ⊢
      omega
    have hfp : footprint padding
        (⟨pane.uuid, (chosen.x, chosen.y), (pane.width, pane.height)⟩ : PanePosition) =
        placed := rfl
    have hnewmem : ∀ fr' ∈ removeRedundantRectangles
        (st.freeRects.flatMap (fun freeRect =>
          if overlapsRect freeRect placed then clipRectangle freeRect placed
          else [freeRect])),
        (∃ fr ∈ st.freeRects, RectSub fr' fr) ∧ RectDisjoint fr' placed := by
      intro fr' hfr'
      have hmem := removeRedundant_mem _ _ hfr'
      rw [List.mem_flatMap] at hmem
      obtain ⟨fr, hfr, hin⟩ := hmem
      by_cases hov : overlapsRect fr placed
      · rw [if_pos hov] at hin
        exact ⟨⟨fr, hfr, clipRectangle_sub fr placed fr' hov hin⟩,
          clipRectangle_disjoint fr placed fr' hin⟩
      · rw [if_neg hov] at hin
        rw [List.mem_singleton] at hin
        subst hin
        exact ⟨⟨fr', hfr, fun q hq => hq⟩, not_overlapsRect_disjoint fr' placed hov⟩
    refine ⟨?_, ?_, ?_, ?_⟩
    · intro fr' hfr'
      obtain ⟨⟨fr, hfr, hsub⟩, _⟩ := hnewmem fr' hfr'
      exact fun q hq => I1 fr hfr q (hsub q hq)
    · intro fr' hfr' p hp
      rw [List.mem_append] at hp
      rcases hp with hp | hp
      · obtain ⟨⟨fr, hfr, hsub⟩, _⟩ := hnewmem fr' hfr'
        exact fun q hq => I2 fr hfr p hp q ⟨hsub q hq.1, hq.2⟩
      · rw [List.mem_singleton] at hp
        subst hp
        obtain ⟨_, hdisp⟩ := hnewmem fr' hfr'
        rw [hfp]
        exact hdisp
    · rw [List.pairwise_append]
      refine ⟨I3, List.pairwise_singleton _ _, ?_⟩
      intro p hp p' hp'
      rw [List.mem_singleton] at hp'
      subst hp'
      rw [hfp]
      intro q hq
      exact I2 chosen hcmem p hp q ⟨hplacedsub q hq.2, hq.1⟩
    · intro p hp
      rw [List.mem_append] at hp
      rcases hp with hp | hp
      · exact I4 p hp
      · rw [List.mem_singleton] at hp
        subst hp
        rw [hfp]
        exact fun q hq => I1 chosen hcmem q (hplacedsub q hq)

theorem packFold_inv (padding margin : Int) (container : Rect) :
    ∀ (panes : List SizedPane) (st : PackState), PackInv padding container st →
      PackInv padding container (panes.foldl (packStep padding margin) st)
  | [], _, h => h
  | pn :: panes, st, h =>
    packFold_inv padding margin container panes (packStep padding margin st pn)
      (packStep_inv padding margin container st pn h)

theorem packInv_initial (padding : Int) (container : Rect) :
    PackInv padding container ⟨[container], [], true⟩ := by
  intro _
  refine ⟨?_, ?_, ?_, ?_⟩
  · intro fr hfr
    rw [List.mem_singleton] at hfr
    subst hfr
    exact fun q hq => hq
  · intro fr _ p hp
    simp at hp
  · exact List.Pairwise.nil
  · intro p hp
    simp at hp

theorem calculateMaxRectsLayout_eq (paneUuids : List String) (chunkDimensions : Int × Int)
    (dataMap : String → Option PaneData) (options : PaneLayoutOptions)
    (h : ¬ paneUuids = []) :
    calculateMaxRectsLayout paneUuids chunkDimensions dataMap options =
      ⟨((panesWithSizes paneUuids dataMap options.minPaneSize).foldl
          (packStep options.padding options.margin)
          ⟨[innerContainer chunkDimensions options.margin], [], true⟩).positions,
       ((panesWithSizes paneUuids dataMap options.minPaneSize).foldl
          (packStep options.padding options.margin)
          ⟨[innerContainer chunkDimensions options.margin], [], true⟩).fitsWell,
       Rat.divInt (((panesWithSizes paneUuids dataMap options.minPaneSize).foldl
          (packStep options.padding options.margin)
          ⟨[innerContainer chunkDimensions options.margin], [], true⟩).positions.foldl
            (fun s p => s + p.size.1 * p.size.2) 0)
         (chunkDimensions.1 * chunkDimensions.2)⟩ := by
  simp [calculateMaxRectsLayout, innerContainer, h]

/-- C3: whenever packing reports `allFit = true` (and the padding option
is nonnegative, as the spec's "minimum empty space" reading requires),
the placements' padded footprints are pairwise non-overlapping, and every
placed rectangle lies inside the container shrunk by `margin` on all four
sides. -/
theorem packer_no_overlap (paneUuids : List String) (chunkDimensions : Int × Int)
    (dataMap : String → Option PaneData) (options : PaneLayoutOptions)
    (hpad : 0 ≤ options.padding)
    (hfit : (calculateMaxRectsLayout paneUuids chunkDimensions dataMap options).fitsWell
      = true) :
    (calculateMaxRectsLayout paneUuids chunkDimensions dataMap options).positions.Pairwise
      (fun p q => RectDisjoint (footprint options.padding p) (footprint options.padding q)) ∧
    ∀ p ∈ (calculateMaxRectsLayout paneUuids chunkDimensions dataMap options).positions,
      RectSub (itemRect p) (innerContainer chunkDimensions options.margin) := by
  by_cases hnil : paneUuids = []
  · subst hnil
    simp [calculateMaxRectsLayout]
  · rw [calculateMaxRectsLayout_eq paneUuids chunkDimensions dataMap options hnil] at hfit ⊢
    simp only at hfit ⊢
    have hinv := packFold_inv options.padding options.margin
      (innerContainer chunkDimensions options.margin)
      (panesWithSizes paneUuids dataMap options.minPaneSize)
      ⟨[innerContainer chunkDimensions options.margin], [], true⟩
      (packInv_initial options.padding (innerContainer chunkDimensions options.margin))
    obtain ⟨_, _, I3, I4⟩ := hinv hfit
    exact ⟨I3, fun p hp q hq =>
      I4 p hp q (itemRect_sub_footprint options.padding hpad p q hq)⟩

theorem packer_no_overlap_witness :
    (0 : Int) ≤ PaneLayoutOptions.padding {} ∧
    (calculateMaxRectsLayout ["a"] (1000, 1000) (fun _ => none) {}).fitsWell = true ∧
    ((calculateMaxRectsLayout ["a"] (1000, 1000) (fun _ => none) {}).positions.Pairwise
      (fun p q => RectDisjoint (footprint (PaneLayoutOptions.padding {}) p)
        (footprint (PaneLayoutOptions.padding {}) q)) ∧
     ∀ p ∈ (calculateMaxRectsLayout ["a"] (1000, 1000) (fun _ => none) {}).positions,
       RectSub (itemRect p) (innerContainer (1000, 1000) (PaneLayoutOptions.margin {}))) :=
  ⟨by decide, by decide,
    packer_no_overlap ["a"] (1000, 1000) (fun _ => none) {} (by decide) (by decide)⟩

/-! ### Area accounting for utilization -/

theorem mem_rectPoints (q : Int × Int) (r : Rect) : q ∈ rectPoints r ↔ inRect q r := by
  simp only [rectPoints, inRect, Finset.mem_product, Finset.mem_Ico]
  tauto

theorem card_rectPoints (r : Rect) (hw : 0 ≤ r.width) (hh : 0 ≤ r.height) :
    ((rectPoints r).card : Int) = r.width * r.height := by
  have h1 : r.x + r.width - r.x = r.width := by ring
  have h2 : r.y + r.height - r.y = r.height := by ring
  rw [rectPoints, Finset.card_product, Int.card_Ico, Int.card_Ico, h1, h2]
  push_cast [Int.toNat_of_nonneg hw, Int.toNat_of_nonneg hh]
  ring

theorem rectDisjoint_disjoint (a b : Rect) (h : RectDisjoint a b) :
    Disjoint (rectPoints a) (rectPoints b) := by
  rw [Finset.disjoint_left]
  intro q hqa hqb
  exact h q ⟨(mem_rectPoints q a).mp hqa, (mem_rectPoints q b).mp hqb⟩

theorem rectSub_subset (a b : Rect) (h : RectSub a b) : rectPoints a ⊆ rectPoints b :=
  fun q hq => (mem_rectPoints q b).mpr (h q ((mem_rectPoints q a).mp hq))

theorem mem_unionPoints (l : List PanePosition) (q : Int × Int) :
    q ∈ l.foldr (fun p acc => rectPoints (itemRect p) ∪ acc) ∅ ↔
      ∃ p ∈ l, q ∈ rectPoints (itemRect p) := by
  induction l with
  | nil => simp
  | cons a l ih => simp [ih]

theorem disjoint_unionPoints (l : List PanePosition) (s : Finset (Int × Int))
    (h : ∀ p ∈ l, Disjoint s (rectPoints (itemRect p))) :
    Disjoint s (l.foldr (fun p acc => rectPoints (itemRect p) ∪ acc) ∅) := by
  induction l with
  | nil => simp
  | cons a l ih =>
    rw [List.foldr_cons, Finset.disjoint_union_right]
    exact ⟨h a (List.mem_cons_self a l), ih (fun p hp => h p (List.mem_cons_of_mem a hp))⟩

theorem card_unionPoints (l : List PanePosition)
    (h : l.Pairwise (fun p q =>
      Disjoint (rectPoints (itemRect p)) (rectPoints (itemRect q)))) :
    (l.foldr (fun p acc => rectPoints (itemRect p) ∪ acc) ∅).card =
      (l.map (fun p => (rectPoints (itemRect p)).card)).sum := by
  induction l with
  | nil => simp
  | cons a l ih =>
    rw [List.pairwise_cons] at h
    rw [List.foldr_cons, Finset.card_union_of_disjoint (disjoint_unionPoints l _ h.1),
      List.map_cons, List.sum_cons, ih h.2]

theorem unionPoints_subset (l : List PanePosition) (s : Finset (Int × Int))
    (h : ∀ p ∈ l, rectPoints (itemRect p) ⊆ s) :
    l.foldr (fun p acc => rectPoints (itemRect p) ∪ acc) ∅ ⊆ s := by
  induction l with
  | nil => simp
  | cons a l ih =>
    rw [List.foldr_cons, Finset.union_subset_iff]
    exact ⟨h a (List.mem_cons_self a l), ih (fun p hp => h p (List.mem_cons_of_mem a hp))⟩

theorem foldl_add_eq_sum (l : List PanePosition) (a : Int) :
    l.foldl (fun s p => s + p.size.1 * p.size.2) a =
      a + (l.map (fun p => p.size.1 * p.size.2)).sum := by
  induction l generalizing a with
  | nil => simp
  | cons b l ih =>
    rw [List.foldl_cons, ih, List.map_cons, List.sum_cons]
    ring

theorem sizeFor_pos (dataMap : String → Option PaneData) (minPaneSize : Int × Int)
    (hmin : 0 < minPaneSize.1 ∧ 0 < minPaneSize.2) (uuid : String) :
    0 < (sizeFor dataMap minPaneSize uuid).1 ∧ 0 < (sizeFor dataMap minPaneSize uuid).2 := by
  cases hd : dataMap uuid with
  | none =>
    simp only [sizeFor, hd]
    exact hmin
  | some d =>
    simp only [sizeFor, hd]
    by_cases h : 0 < d.paneSize.1 ∧ 0 < d.paneSize.2
    · rw [if_pos h]
      exact h
    · rw [if_neg h]
      exact hmin

/-- C5 amended: for nonnegative `padding` and `margin`, positive
`minPaneSize` and a positive container, whenever all items fit
(`fitsWell = true`) the utilization lies in `[0, 1]`, and it equals `1`
only when the placements tile the container exactly (every container
lattice point covered, placements pairwise disjoint).  Without the
all-fit hypothesis the bound is false: fallback placements of
non-fitting items still count toward the placed area. -/
theorem packer_utilization_bound (paneUuids : List String) (chunkDimensions : Int × Int)
    (dataMap : String → Option PaneData) (options : PaneLayoutOptions)
    (hpad : 0 ≤ options.padding) (hmar : 0 ≤ options.margin)
    (hmin : 0 < options.minPaneSize.1 ∧ 0 < options.minPaneSize.2)
    (hW : 0 < chunkDimensions.1) (hH : 0 < chunkDimensions.2)
    (hfit : (calculateMaxRectsLayout paneUuids chunkDimensions dataMap options).fitsWell
      = true) :
    0 ≤ (calculateMaxRectsLayout paneUuids chunkDimensions dataMap options).utilization ∧
    (calculateMaxRectsLayout paneUuids chunkDimensions dataMap options).utilization ≤ 1 ∧
    ((calculateMaxRectsLayout paneUuids chunkDimensions dataMap options).utilization = 1 →
      (∀ q : Int × Int, inRect q ⟨0, 0, chunkDimensions.1, chunkDimensions.2⟩ →
        ∃ p ∈ (calculateMaxRectsLayout paneUuids chunkDimensions dataMap options).positions,
          inRect q (itemRect p)) ∧
      (calculateMaxRectsLayout paneUuids chunkDimensions dataMap options).positions.Pairwise
        (fun p q => RectDisjoint (itemRect p) (itemRect q))) := by
  have hsize : ∀ p ∈ (calculateMaxRectsLayout paneUuids chunkDimensions
      dataMap options).positions, 0 < p.size.1 ∧ 0 < p.size.2 := by
    intro p hp
    rw [packed_size_eq paneUuids chunkDimensions dataMap options p hp]
    exact sizeFor_pos dataMap options.minPaneSize hmin p.uuid
  by_cases hnil : paneUuids = []
  · subst hnil
    simp only [calculateMaxRectsLayout, if_pos rfl]
    refine ⟨le_refl 0, by norm_num, fun h => absurd h (by norm_num)⟩
  · have hgeom := packFold_inv options.padding options.margin
      (innerContainer chunkDimensions options.margin)
      (panesWithSizes paneUuids dataMap options.minPaneSize)
      ⟨[innerContainer chunkDimensions options.margin], [], true⟩
      (packInv_initial options.padding (innerContainer chunkDimensions options.margin))
    rw [calculateMaxRectsLayout_eq paneUuids chunkDimensions dataMap options hnil]
      at hfit hsize ⊢
    simp only at hfit hsize ⊢
    obtain ⟨_, _, I3, I4⟩ := hgeom hfit
    set L := ((panesWithSizes paneUuids dataMap options.minPaneSize).foldl
      (packStep options.padding options.margin)
      ⟨[innerContainer chunkDimensions options.margin], [], true⟩).positions with hL
    set B : Int := chunkDimensions.1 * chunkDimensions.2 with hB
    have hBpos : 0 < B := mul_pos hW hH
    -- placements: pairwise disjoint items inside the full container
    have hitemdisj : L.Pairwise (fun p q => RectDisjoint (itemRect p) (itemRect q)) := by
      refine I3.imp ?_
      intro p q hdis pt hpt
      exact hdis pt ⟨itemRect_sub_footprint options.padding hpad p pt hpt.1,
        itemRect_sub_footprint options.padding hpad q pt hpt.2⟩
    have hitemfull : ∀ p ∈ L, RectSub (itemRect p)
        ⟨0, 0, chunkDimensions.1, chunkDimensions.2⟩ := by
      intro p hp pt hpt
      have h1 := I4 p hp pt (itemRect_sub_footprint options.padding hpad p pt hpt)
      simp only [inRect, innerContainer] at h1 ⊢
      omega
    -- area accounting over lattice points
    have hcardp : ∀ p ∈ L, ((rectPoints (itemRect p)).card : Int) =
        p.size.1 * p.size.2 := by
      intro p hp
      have hs := hsize p hp
      exact card_rectPoints (itemRect p) (by exact le_of_lt hs.1) (by exact le_of_lt hs.2)
    have hA : L.foldl (fun s p => s + p.size.1 * p.size.2) 0 =
        (((L.foldr (fun p acc => rectPoints (itemRect p) ∪ acc) ∅).card : Nat) : Int) := by
      rw [foldl_add_eq_sum, zero_add,
        card_unionPoints L (hitemdisj.imp (fun h => rectDisjoint_disjoint _ _ h)),
        Nat.cast_list_sum, List.map_map]
      exact congrArg List.sum (List.map_congr_left (fun p hp => (hcardp p hp).symm))
    set U := L.foldr (fun p acc => rectPoints (itemRect p) ∪ acc) ∅ with hUdef
    have hsub : U ⊆ rectPoints ⟨0, 0, chunkDimensions.1, chunkDimensions.2⟩ :=
      unionPoints_subset L _ (fun p hp => rectSub_subset _ _ (hitemfull p hp))
    have hcardfull :
        ((rectPoints ⟨0, 0, chunkDimensions.1, chunkDimensions.2⟩).card : Int) = B := by
      rw [card_rectPoints _ (le_of_lt hW) (le_of_lt hH)]
    have hAle : L.foldl (fun s p => s + p.size.1 * p.size.2) 0 ≤ B := by
      rw [hA, ← hcardfull]
      exact_mod_cast Finset.card_le_card hsub
    have hA0 : 0 ≤ L.foldl (fun s p => s + p.size.1 * p.size.2) 0 := by
      rw [hA]
      exact Int.natCast_nonneg _
    rw [Rat.divInt_eq_div]
    have hBQ : (0 : ℚ) < ((B : Int) : ℚ) := by exact_mod_cast hBpos
    refine ⟨div_nonneg (by exact_mod_cast hA0) (le_of_lt hBQ), ?_, ?_⟩
    · rw [div_le_one hBQ]
      exact_mod_cast hAle
    · intro h1
      have hAB : L.foldl (fun s p => s + p.size.1 * p.size.2) 0 = B := by
        have h2 := (div_eq_one_iff_eq (ne_of_gt hBQ)).mp h1
        exact_mod_cast h2
      have hUB : (U.card : Int) = B := by
        rw [← hA]
        exact hAB
      have hcards : (rectPoints
          ⟨0, 0, chunkDimensions.1, chunkDimensions.2⟩).card ≤ U.card := by
        have h3 : (rectPoints ⟨0, 0, chunkDimensions.1, chunkDimensions.2⟩).card =
            U.card := by exact_mod_cast hcardfull.trans hUB.symm
        exact le_of_eq h3
      have hUeq : U = rectPoints ⟨0, 0, chunkDimensions.1, chunkDimensions.2⟩ :=
        Finset.eq_of_subset_of_card_le hsub hcards
      constructor
      · intro q hq
        have hqU : q ∈ U := by
          rw [hUeq]
          exact (mem_rectPoints q _).mpr hq
        obtain ⟨p, hp, hqp⟩ := (mem_unionPoints L q).mp hqU
        exact ⟨p, hp, (mem_rectPoints q _).mp hqp⟩
      · exact hitemdisj

theorem packer_utilization_bound_witness :
    (0 : Int) ≤ PaneLayoutOptions.padding ⟨(10, 10), 0, 0⟩ ∧
    (0 : Int) ≤ PaneLayoutOptions.margin ⟨(10, 10), 0, 0⟩ ∧
    (0 < (PaneLayoutOptions.minPaneSize ⟨(10, 10), 0, 0⟩).1 ∧
      0 < (PaneLayoutOptions.minPaneSize ⟨(10, 10), 0, 0⟩).2) ∧
    (0 : Int) < 100 ∧ (0 : Int) < 100 ∧
    (calculateMaxRectsLayout ["a"] (100, 100) (singlePaneMap 100 100)
      ⟨(10, 10), 0, 0⟩).fitsWell = true ∧
    (0 ≤ (calculateMaxRectsLayout ["a"] (100, 100) (singlePaneMap 100 100)
        ⟨(10, 10), 0, 0⟩).utilization ∧
     (calculateMaxRectsLayout ["a"] (100, 100) (singlePaneMap 100 100)
        ⟨(10, 10), 0, 0⟩).utilization ≤ 1 ∧
     ((calculateMaxRectsLayout ["a"] (100, 100) (singlePaneMap 100 100)
        ⟨(10, 10), 0, 0⟩).utilization = 1 →
       (∀ q : Int × Int, inRect q ⟨0, 0, 100, 100⟩ →
         ∃ p ∈ (calculateMaxRectsLayout ["a"] (100, 100) (singlePaneMap 100 100)
           ⟨(10, 10), 0, 0⟩).positions, inRect q (itemRect p)) ∧
       (calculateMaxRectsLayout ["a"] (100, 100) (singlePaneMap 100 100)
         ⟨(10, 10), 0, 0⟩).positions.Pairwise
           (fun p q => RectDisjoint (itemRect p) (itemRect q)))) :=
  ⟨by decide, by decide, by decide, by decide, by decide, by decide,
   packer_utilization_bound ["a"] (100, 100) (singlePaneMap 100 100) ⟨(10, 10), 0, 0⟩
     (by decide) (by decide) (by decide) (by decide) (by decide) (by decide)⟩

/-! ### Assoc-list map lemmas -/

section MapLemmas

variable {κ α : Type} [DecidableEq κ]

theorem mapGet_mapSet_self (m : List (κ × α)) (k : κ) (v : α) :
    mapGet (mapSet m k v) k = some v := by
  induction m with
  | nil => simp [mapGet, mapSet]
  | cons e m ih =>
    by_cases h : e.1 = k
    · simp [mapGet, mapSet, h]
    · simp [mapGet, mapSet, h, ih]

theorem mapGet_mapSet_ne (m : List (κ × α)) (k k' : κ) (v : α) (h : k' ≠ k) :
    mapGet (mapSet m k v) k' = mapGet m k' := by
  have hkk : ¬ k = k' := fun hh => h hh.symm
  induction m with
  | nil => simp [mapSet, mapGet, hkk]
  | cons e m ih =>
    by_cases he : e.1 = k
    · rw [mapSet, if_pos he, mapGet, mapGet, if_neg hkk, if_neg (by rw [he]; exact hkk)]
    · rw [mapSet, if_neg he, mapGet, mapGet]
      by_cases he' : e.1 = k'
      · rw [if_pos he', if_pos he']
      · rw [if_neg he', if_neg he', ih]

theorem mapGet_mapDelete_ne (m : List (κ × α)) (k k' : κ) (h : k' ≠ k) :
    mapGet (mapDelete m k) k' = mapGet m k' := by
  induction m with
  | nil => rfl
  | cons e m ih =>
    by_cases he : e.1 = k
    · rw [mapDelete, if_pos he, mapGet, if_neg (by rw [he]; exact fun hh => h hh.symm)]
    · rw [mapDelete, if_neg he, mapGet, mapGet, ih]

theorem mapGet_eq_none_iff (m : List (κ × α)) (k : κ) :
    mapGet m k = none ↔ ∀ e ∈ m, e.1 ≠ k := by
  induction m with
  | nil => simp [mapGet]
  | cons e m ih =>
    by_cases he : e.1 = k
    · simp [mapGet, he]
    · simp [mapGet, he, ih]

theorem mapGet_some_mem (m : List (κ × α)) (k : κ) (v : α) (h : mapGet m k = some v) :
    (k, v) ∈ m := by
  induction m with
  | nil => simp [mapGet] at h
  | cons e m ih =>
    by_cases he : e.1 = k
    · rw [mapGet, if_pos he] at h
      exact List.mem_cons.mpr (Or.inl (Prod.ext he.symm (Option.some.inj h).symm))
    · rw [mapGet, if_neg he] at h
      exact List.mem_cons_of_mem e (ih h)

theorem mapGet_of_mem_nodup (m : List (κ × α)) (k : κ) (v : α)
    (hnd : (m.map (fun e => e.1)).Nodup) (h : (k, v) ∈ m) : mapGet m k = some v := by
  induction m with
  | nil => simp at h
  | cons e m ih =>
    rw [List.map_cons, List.nodup_cons] at hnd
    rcases List.mem_cons.mp h with he | hm
    · rw [← he, mapGet, if_pos rfl]
    · have hek : e.1 ≠ k := by
        intro hh
        exact hnd.1 (hh ▸ (List.mem_map_of_mem (fun e => e.1) hm))
      rw [mapGet, if_neg hek]
      exact ih hnd.2 hm

theorem mapDelete_eq_nil_get (m : List (κ × α)) (k k' : κ) (hne : k' ≠ k)
    (h : mapDelete m k = []) : mapGet m k' = none := by
  induction m with
  | nil => rfl
  | cons e m ih =>
    by_cases he : e.1 = k
    · rw [mapDelete, if_pos he] at h
      subst h
      rw [mapGet, if_neg (by rw [he]; exact fun hh => hne hh.symm), mapGet]
    · rw [mapDelete, if_neg he] at h
      simp at h

theorem mapGet_mapDelete_self (m : List (κ × α)) (k : κ)
    (hnd : (m.map (fun e => e.1)).Nodup) : mapGet (mapDelete m k) k = none := by
  induction m with
  | nil => rfl
  | cons e m ih =>
    rw [List.map_cons, List.nodup_cons] at hnd
    by_cases he : e.1 = k
    · rw [mapDelete, if_pos he]
      rw [mapGet_eq_none_iff]
      intro e' he' hke
      exact hnd.1 (he.symm ▸ hke ▸ List.mem_map_of_mem (fun e => e.1) he')
    · rw [mapDelete, if_neg he, mapGet, if_neg he]
      exact ih hnd.2

theorem keys_mapSet_mem (m : List (κ × α)) (k : κ) (v : α) (h : mapGet m k ≠ none) :
    (mapSet m k v).map (fun e => e.1) = m.map (fun e => e.1) := by
  induction m with
  | nil => simp [mapGet] at h
  | cons e m ih =>
    by_cases he : e.1 = k
    · simp [mapSet, he]
    · rw [mapGet, if_neg he] at h
      simp [mapSet, he, ih h]

theorem keys_mapSet_new (m : List (κ × α)) (k : κ) (v : α) (h : mapGet m k = none) :
    (mapSet m k v).map (fun e => e.1) = m.map (fun e => e.1) ++ [k] := by
  induction m with
  | nil => simp [mapSet]
  | cons e m ih =>
    by_cases he : e.1 = k
    · rw [mapGet, if_pos he] at h
      simp at h
    · rw [mapGet, if_neg he] at h
      simp [mapSet, he, ih h]

theorem nodup_keys_mapSet (m : List (κ × α)) (k : κ) (v : α)
    (hnd : (m.map (fun e => e.1)).Nodup) : ((mapSet m k v).map (fun e => e.1)).Nodup := by
  by_cases h : mapGet m k = none
  · rw [keys_mapSet_new m k v h]
    rw [List.nodup_append]
    refine ⟨hnd, List.nodup_singleton k, ?_⟩
    intro a ha hk
    rw [List.mem_singleton] at hk
    subst hk
    rw [mapGet_eq_none_iff] at h
    obtain ⟨e, he, hek⟩ := List.mem_map.mp ha
    exact h e he (by rw [hek])
  · rw [keys_mapSet_mem m k v h]
    exact hnd

theorem keys_mapDelete_sublist (m : List (κ × α)) (k : κ) :
    List.Sublist ((mapDelete m k).map (fun e => e.1)) (m.map (fun e => e.1)) := by
  induction m with
  | nil => simp [mapDelete]
  | cons e m ih =>
    by_cases he : e.1 = k
    · rw [mapDelete, if_pos he, List.map_cons]
      exact List.sublist_cons_of_sublist _ (List.Sublist.refl _)
    · rw [mapDelete, if_neg he, List.map_cons, List.map_cons]
      exact List.Sublist.cons₂ _ ih

theorem mem_mapSet (m : List (κ × α)) (k : κ) (v : α) (e : κ × α)
    (h : e ∈ mapSet m k v) : e = (k, v) ∨ e ∈ m := by
  induction m with
  | nil => simpa [mapSet] using h
  | cons e' m ih =>
    by_cases he : e'.1 = k
    · rw [mapSet, if_pos he] at h
      rcases List.mem_cons.mp h with h1 | h1
      · exact Or.inl h1
      · exact Or.inr (List.mem_cons_of_mem e' h1)
    · rw [mapSet, if_neg he] at h
      rcases List.mem_cons.mp h with h1 | h1
      · exact Or.inr (h1 ▸ List.mem_cons_self e' m)
      · rcases ih h1 with h2 | h2
        · exact Or.inl h2
        · exact Or.inr (List.mem_cons_of_mem e' h2)

theorem mem_mapDelete (m : List (κ × α)) (k : κ) (e : κ × α)
    (h : e ∈ mapDelete m k) : e ∈ m := by
  induction m with
  | nil => simpa [mapDelete] using h
  | cons e' m ih =>
    by_cases he : e'.1 = k
    · rw [mapDelete, if_pos he] at h
      exact List.mem_cons_of_mem e' h
    · rw [mapDelete, if_neg he] at h
      rcases List.mem_cons.mp h with h1 | h1
      · exact h1 ▸ List.mem_cons_self e' m
      · exact List.mem_cons_of_mem e' (ih h1)

theorem mapSet_append_of_none (m : List (κ × α)) (k : κ) (v : α)
    (h : mapGet m k = none) : mapSet m k v = m ++ [(k, v)] := by
  induction m with
  | nil => simp [mapSet]
  | cons e m ih =>
    by_cases he : e.1 = k
    · rw [mapGet, if_pos he] at h
      simp at h
    · rw [mapGet, if_neg he] at h
      rw [mapSet, if_neg he, ih h, List.cons_append]

theorem mapGet_append_none (m m' : List (κ × α)) (k : κ) (h : mapGet m k = none) :
    mapGet (m ++ m') k = mapGet m' k := by
  induction m with
  | nil => simp
  | cons e m ih =>
    by_cases he : e.1 = k
    · rw [mapGet, if_pos he] at h
      simp at h
    · rw [mapGet, if_neg he] at h
      rw [List.cons_append, mapGet, if_neg he]
      exact ih h

end MapLemmas

/-! ### ChunkManager operation specifications -/

theorem chunkAt_congr_loadedChunks (s s' : ManagerState)
    (h : s.loadedChunks = s'.loadedChunks) (c : Int × Int) : chunkAt s c = chunkAt s' c := by
  unfold chunkAt
  rw [h]

theorem mountPane_chunkAt_self (now : Int) (s : ManagerState) (c : Int × Int)
    (p : PaneData) (hol : ChunkHolder) (hc : chunkAt s c = some hol) :
    chunkAt (mountPane now s c p) c =
      some ⟨hol.uuid, mapSet hol.paneData p.uuid p⟩ := by
  unfold chunkAt at hc
  cases hx : mapGet s.loadedChunks c.1 with
  | none => rw [hx] at hc; simp at hc
  | some yMap =>
    rw [hx, Option.some_bind] at hc
    simp only [mountPane, hx, hc]
    simp [chunkAt, persistChunkToStorage, mapGet_mapSet_self]

theorem mountPane_chunkAt_ne (now : Int) (s : ManagerState) (c c' : Int × Int)
    (p : PaneData) (hne : c' ≠ c) :
    chunkAt (mountPane now s c p) c' = chunkAt s c' := by
  cases hx : mapGet s.loadedChunks c.1 with
  | none => simp [mountPane, hx]
  | some yMap =>
    cases hy : mapGet yMap c.2 with
    | none => simp [mountPane, hx, hy]
    | some hol =>
      simp only [mountPane, hx, hy]
      by_cases h1 : c'.1 = c.1
      · have h2 : c'.2 ≠ c.2 := fun hh => hne (Prod.ext h1 hh)
        simp [chunkAt, persistChunkToStorage, h1, mapGet_mapSet_self,
          mapGet_mapSet_ne _ _ _ _ h2, hx]
      · simp [chunkAt, persistChunkToStorage, mapGet_mapSet_ne _ _ _ _ h1]

theorem mountPane_isSome (now : Int) (s : ManagerState) (c₀ c : Int × Int) (p : PaneData)
    (h : chunkAt s c ≠ none) : chunkAt (mountPane now s c₀ p) c ≠ none := by
  by_cases he : c = c₀
  · subst he
    cases hhol : chunkAt s c with
    | none => exact absurd hhol h
    | some hol =>
      rw [mountPane_chunkAt_self now s c p hol hhol]
      simp
  · rw [mountPane_chunkAt_ne now s c₀ c p he]
    exact h

theorem mountPane_WF (now : Int) (s : ManagerState) (c : Int × Int) (p : PaneData)
    (hWF : WFState s) : WFState (mountPane now s c p) := by
  cases hx : mapGet s.loadedChunks c.1 with
  | none => simpa [mountPane, hx] using hWF
  | some yMap =>
    cases hy : mapGet yMap c.2 with
    | none => simpa [mountPane, hx, hy] using hWF
    | some hol =>
      simp only [mountPane, hx, hy]
      obtain ⟨hnd, hcols⟩ := hWF
      have hymem : (c.1, yMap) ∈ s.loadedChunks := mapGet_some_mem _ _ _ hx
      have hynd := hcols (c.1, yMap) hymem
      constructor
      · exact nodup_keys_mapSet _ _ _ hnd
      · intro col hcol
        rcases mem_mapSet _ _ _ _ hcol with h1 | h1
        · subst h1
          exact nodup_keys_mapSet _ _ _ hynd
        · exact hcols col h1

theorem loadWithFetch_loaded (fetch : Except String (Option ChunkData)) (fresh : String)
    (now : Int) (s : ManagerState) (c : Int × Int) (h : chunkAt s c ≠ none) :
    loadWithFetch fetch fresh now s c = (s, none) := by
  unfold chunkAt at h
  cases hx : mapGet s.loadedChunks c.1 with
  | none => rw [hx] at h; simp at h
  | some yMap =>
    rw [hx, Option.some_bind] at h
    obtain ⟨hol, hy⟩ := Option.ne_none_iff_exists'.mp h
    simp [loadWithFetch, hx, hy]

theorem foldMountPane_chunkAt_ne (now : Int) (c c' : Int × Int) (hne : c' ≠ c) :
    ∀ (panes : List PaneData) (s : ManagerState),
      chunkAt (panes.foldl (fun st p => mountPane now st c p) s) c' = chunkAt s c'
  | [], s => rfl
  | p :: panes, s => by
    rw [List.foldl_cons, foldMountPane_chunkAt_ne now c c' hne panes _,
      mountPane_chunkAt_ne now s c c' p hne]

theorem foldMountPane_isSome (now : Int) (c : Int × Int) :
    ∀ (panes : List PaneData) (s : ManagerState), chunkAt s c ≠ none →
      chunkAt (panes.foldl (fun st p => mountPane now st c p) s) c ≠ none
  | [], s, h => h
  | p :: panes, s, h => by
    rw [List.foldl_cons]
    exact foldMountPane_isSome now c panes _ (mountPane_isSome now s c c p h)

theorem foldMountPane_WF (now : Int) (c : Int × Int) :
    ∀ (panes : List PaneData) (s : ManagerState), WFState s →
      WFState (panes.foldl (fun st p => mountPane now st c p) s)
  | [], _, h => h
  | p :: panes, s, h => by
    rw [List.foldl_cons]
    exact foldMountPane_WF now c panes _ (mountPane_WF now s c p h)

theorem chunkAt_insert_fresh (s : ManagerState) (c c' : Int × Int) (hol : ChunkHolder)
    (hx : mapGet s.loadedChunks c.1 = none) (hne : c' ≠ c) :
    chunkAt ⟨mapSet (mapSet s.loadedChunks c.1 []) c.1
      (mapSet ([] : List (Int × ChunkHolder)) c.2 hol), s.storage⟩ c' = chunkAt s c' := by
  unfold chunkAt
  by_cases h1 : c'.1 = c.1
  · rw [h1]
    simp only [mapGet_mapSet_self, Option.some_bind]
    have h2 : c'.2 ≠ c.2 := fun hh => hne (Prod.ext h1 hh)
    rw [mapGet_mapSet_ne _ _ _ _ h2, hx]
    rfl
  · simp only [mapGet_mapSet_ne _ _ _ _ h1]

theorem chunkAt_insert_fresh_self (s : ManagerState) (c : Int × Int) (hol : ChunkHolder) :
    chunkAt ⟨mapSet (mapSet s.loadedChunks c.1 []) c.1
      (mapSet ([] : List (Int × ChunkHolder)) c.2 hol), s.storage⟩ c = some hol := by
  unfold chunkAt
  simp [mapGet_mapSet_self]

theorem chunkAt_insert_existing (s : ManagerState) (c c' : Int × Int) (hol : ChunkHolder)
    (yMap : List (Int × ChunkHolder)) (hx : mapGet s.loadedChunks c.1 = some yMap)
    (hne : c' ≠ c) :
    chunkAt ⟨mapSet s.loadedChunks c.1 (mapSet yMap c.2 hol), s.storage⟩ c' =
      chunkAt s c' := by
  unfold chunkAt
  by_cases h1 : c'.1 = c.1
  · rw [h1]
    simp only [mapGet_mapSet_self, Option.some_bind]
    have h2 : c'.2 ≠ c.2 := fun hh => hne (Prod.ext h1 hh)
    rw [mapGet_mapSet_ne _ _ _ _ h2, hx]
    rfl
  · simp only [mapGet_mapSet_ne _ _ _ _ h1]

theorem chunkAt_insert_existing_self (s : ManagerState) (c : Int × Int) (hol : ChunkHolder)
    (yMap : List (Int × ChunkHolder)) :
    chunkAt ⟨mapSet s.loadedChunks c.1 (mapSet yMap c.2 hol), s.storage⟩ c = some hol := by
  unfold chunkAt
  simp [mapGet_mapSet_self]

theorem WF_insert_fresh (s : ManagerState) (c : Int × Int) (hol : ChunkHolder)
    (hWF : WFState s) :
    WFState ⟨mapSet (mapSet s.loadedChunks c.1 []) c.1
      (mapSet ([] : List (Int × ChunkHolder)) c.2 hol), s.storage⟩ := by
  obtain ⟨hnd, hcols⟩ := hWF
  constructor
  · exact nodup_keys_mapSet _ _ _ (nodup_keys_mapSet _ _ _ hnd)
  · intro col hcol
    rcases mem_mapSet _ _ _ _ hcol with h1 | h1
    · subst h1
      simp [mapSet]
    · rcases mem_mapSet _ _ _ _ h1 with h2 | h2
      · subst h2
        simp
      · exact hcols col h2

theorem WF_insert_existing (s : ManagerState) (c : Int × Int) (hol : ChunkHolder)
    (yMap : List (Int × ChunkHolder)) (hx : mapGet s.loadedChunks c.1 = some yMap)
    (hWF : WFState s) :
    WFState ⟨mapSet s.loadedChunks c.1 (mapSet yMap c.2 hol), s.storage⟩ := by
  obtain ⟨hnd, hcols⟩ := hWF
  have hynd := hcols (c.1, yMap) (mapGet_some_mem _ _ _ hx)
  constructor
  · exact nodup_keys_mapSet _ _ _ hnd
  · intro col hcol
    rcases mem_mapSet _ _ _ _ hcol with h1 | h1
    · subst h1
      exact nodup_keys_mapSet _ _ _ hynd
    · exact hcols col h1

theorem loadWithFetch_chunkAt_self (fetch : Except String (Option ChunkData)) (fresh : String)
    (now : Int) (s : ManagerState) (c : Int × Int) :
    chunkAt (loadWithFetch fetch fresh now s c).1 c ≠ none := by
  by_cases h : chunkAt s c = none
  · unfold chunkAt at h
    cases hx : mapGet s.loadedChunks c.1 with
    | none =>
      rcases fetch with e | d
      · simp [loadWithFetch, hx, mapGet_mapSet_self, mapGet, chunkAt_insert_fresh_self]
      · cases d with
        | none =>
          simp [loadWithFetch, hx, mapGet_mapSet_self, mapGet, chunkAt_insert_fresh_self]
        | some dd =>
          simp only [loadWithFetch, hx, reduceIte, mapGet_mapSet_self, Option.getD_some,
            mapGet, ne_eq, reduceCtorEq, not_false_eq_true, not_true_eq_false, if_false,
            ite_false]
          refine foldMountPane_isSome now c _ _ ?_
          rw [chunkAt_insert_fresh_self]
          simp
    | some yMap =>
      rw [hx, Option.some_bind] at h
      rcases fetch with e | d
      · simp [loadWithFetch, hx, h, chunkAt_insert_existing_self]
      · cases d with
        | none => simp [loadWithFetch, hx, h, chunkAt_insert_existing_self]
        | some dd =>
          simp only [loadWithFetch, hx, reduceCtorEq, if_false, Option.getD_some, ne_eq, h,
            not_true_eq_false, ite_false]
          refine foldMountPane_isSome now c _ _ ?_
          rw [chunkAt_insert_existing_self]
          simp
  · rw [loadWithFetch_loaded fetch fresh now s c h]
    exact h

theorem loadWithFetch_chunkAt_ne (fetch : Except String (Option ChunkData)) (fresh : String)
    (now : Int) (s : ManagerState) (c c' : Int × Int) (hne : c' ≠ c) :
    chunkAt (loadWithFetch fetch fresh now s c).1 c' = chunkAt s c' := by
  by_cases h : chunkAt s c = none
  · unfold chunkAt at h
    cases hx : mapGet s.loadedChunks c.1 with
    | none =>
      rcases fetch with e | d
      · simp only [loadWithFetch, hx, reduceIte, mapGet_mapSet_self, Option.getD_some,
          mapGet, ne_eq, reduceCtorEq, not_false_eq_true, not_true_eq_false, if_false,
          ite_false]
        exact chunkAt_insert_fresh s c c' _ hx hne
      · cases d with
        | none =>
          simp only [loadWithFetch, hx, reduceIte, mapGet_mapSet_self, Option.getD_some,
            mapGet, ne_eq, reduceCtorEq, not_false_eq_true, not_true_eq_false, if_false,
            ite_false]
          exact chunkAt_insert_fresh s c c' _ hx hne
        | some dd =>
          simp only [loadWithFetch, hx, reduceIte, mapGet_mapSet_self, Option.getD_some,
            mapGet, ne_eq, reduceCtorEq, not_false_eq_true, not_true_eq_false, if_false,
            ite_false]
          rw [foldMountPane_chunkAt_ne now c c' hne]
          exact chunkAt_insert_fresh s c c' _ hx hne
    | some yMap =>
      rw [hx, Option.some_bind] at h
      rcases fetch with e | d
      · simp only [loadWithFetch, hx, reduceCtorEq, if_false, Option.getD_some, ne_eq, h,
          not_true_eq_false, ite_false]
        exact chunkAt_insert_existing s c c' _ yMap hx hne
      · cases d with
        | none =>
          simp only [loadWithFetch, hx, reduceCtorEq, if_false, Option.getD_some, ne_eq, h,
            not_true_eq_false, ite_false]
          exact chunkAt_insert_existing s c c' _ yMap hx hne
        | some dd =>
          simp only [loadWithFetch, hx, reduceCtorEq, if_false, Option.getD_some, ne_eq, h,
            not_true_eq_false, ite_false]
          rw [foldMountPane_chunkAt_ne now c c' hne]
          exact chunkAt_insert_existing s c c' _ yMap hx hne
  · rw [loadWithFetch_loaded fetch fresh now s c h]

theorem loadWithFetch_WF (fetch : Except String (Option ChunkData)) (fresh : String)
    (now : Int) (s : ManagerState) (c : Int × Int) (hWF : WFState s) :
    WFState (loadWithFetch fetch fresh now s c).1 := by
  by_cases h : chunkAt s c = none
  · unfold chunkAt at h
    cases hx : mapGet s.loadedChunks c.1 with
    | none =>
      rcases fetch with e | d
      · simp only [loadWithFetch, hx, reduceIte, mapGet_mapSet_self, Option.getD_some,
          mapGet, ne_eq, reduceCtorEq, not_false_eq_true, not_true_eq_false, if_false,
          ite_false]
        exact WF_insert_fresh s c _ hWF
      · cases d with
        | none =>
          simp only [loadWithFetch, hx, reduceIte, mapGet_mapSet_self, Option.getD_some,
            mapGet, ne_eq, reduceCtorEq, not_false_eq_true, not_true_eq_false, if_false,
            ite_false]
          exact WF_insert_fresh s c _ hWF
        | some dd =>
          simp only [loadWithFetch, hx, reduceIte, mapGet_mapSet_self, Option.getD_some,
            mapGet, ne_eq, reduceCtorEq, not_false_eq_true, not_true_eq_false, if_false,
            ite_false]
          exact foldMountPane_WF now c _ _ (WF_insert_fresh s c _ hWF)
    | some yMap =>
      rw [hx, Option.some_bind] at h
      rcases fetch with e | d
      · simp only [loadWithFetch, hx, reduceCtorEq, if_false, Option.getD_some, ne_eq, h,
          not_true_eq_false, ite_false]
        exact WF_insert_existing s c _ yMap hx hWF
      · cases d with
        | none =>
          simp only [loadWithFetch, hx, reduceCtorEq, if_false, Option.getD_some, ne_eq, h,
            not_true_eq_false, ite_false]
          exact WF_insert_existing s c _ yMap hx hWF
        | some dd =>
          simp only [loadWithFetch, hx, reduceCtorEq, if_false, Option.getD_some, ne_eq, h,
            not_true_eq_false, ite_false]
          exact foldMountPane_WF now c _ _ (WF_insert_existing s c _ yMap hx hWF)
  · rw [loadWithFetch_loaded fetch fresh now s c h]
    exact hWF

theorem unload_not_loaded (now : Int) (s : ManagerState) (c : Int × Int)
    (h : chunkAt s c = none) : ChunkManager.unload now s c = (s, false) := by
  unfold chunkAt at h
  cases hx : mapGet s.loadedChunks c.1 with
  | none => simp [ChunkManager.unload, unloadCore, hx]
  | some yMap =>
    rw [hx, Option.some_bind] at h
    simp [ChunkManager.unload, unloadCore, hx, h]

theorem unload_chunkAt (now : Int) (s : ManagerState) (c : Int × Int) (hWF : WFState s)
    (c' : Int × Int) :
    chunkAt (ChunkManager.unload now s c).1 c' = if c' = c then none else chunkAt s c' := by
  obtain ⟨hnd, hcols⟩ := hWF
  cases hx : mapGet s.loadedChunks c.1 with
  | none =>
    simp only [ChunkManager.unload, unloadCore, hx]
    by_cases he : c' = c
    · rw [if_pos he, he]
      unfold chunkAt
      rw [hx]
      rfl
    · rw [if_neg he]
  | some yMap =>
    have hynd := hcols (c.1, yMap) (mapGet_some_mem _ _ _ hx)
    cases hy : mapGet yMap c.2 with
    | none =>
      simp only [ChunkManager.unload, unloadCore, hx, hy]
      by_cases he : c' = c
      · rw [if_pos he, he]
        unfold chunkAt
        rw [hx, Option.some_bind, hy]
      · rw [if_neg he]
    | some holder =>
      simp only [ChunkManager.unload, unloadCore, hx, hy, if_true]
      by_cases he : c' = c
      · rw [if_pos he, he]
        unfold chunkAt
        by_cases hnil : mapDelete yMap c.2 = []
        · rw [if_pos hnil]
          simp only
          rw [mapGet_mapDelete_self _ _ hnd]
          rfl
        · rw [if_neg hnil]
          simp only
          rw [mapGet_mapSet_self, Option.some_bind, mapGet_mapDelete_self _ _ hynd]
      · rw [if_neg he]
        unfold chunkAt
        by_cases h1 : c'.1 = c.1
        · have h2 : c'.2 ≠ c.2 := fun hh => he (Prod.ext h1 hh)
          by_cases hnil : mapDelete yMap c.2 = []
          · rw [if_pos hnil]
            simp only [h1]
            rw [mapGet_mapDelete_self _ _ hnd, hx, Option.some_bind,
              mapDelete_eq_nil_get yMap c.2 c'.2 h2 hnil]
            rfl
          · rw [if_neg hnil]
            simp only [h1]
            rw [mapGet_mapSet_self, Option.some_bind, mapGet_mapDelete_ne _ _ _ h2, hx,
              Option.some_bind]
        · by_cases hnil : mapDelete yMap c.2 = []
          · rw [if_pos hnil]
            simp only
            rw [mapGet_mapDelete_ne _ _ _ h1]
          · rw [if_neg hnil]
            simp only
            rw [mapGet_mapSet_ne _ _ _ _ h1]

theorem unload_WF (now : Int) (s : ManagerState) (c : Int × Int) (hWF : WFState s) :
    WFState (ChunkManager.unload now s c).1 := by
  obtain ⟨hnd, hcols⟩ := hWF
  cases hx : mapGet s.loadedChunks c.1 with
  | none => simpa [ChunkManager.unload, unloadCore, hx] using ⟨hnd, hcols⟩
  | some yMap =>
    have hynd := hcols (c.1, yMap) (mapGet_some_mem _ _ _ hx)
    cases hy : mapGet yMap c.2 with
    | none => simpa [ChunkManager.unload, unloadCore, hx, hy] using ⟨hnd, hcols⟩
    | some holder =>
      simp only [ChunkManager.unload, unloadCore, hx, hy, if_true]
      by_cases hnil : mapDelete yMap c.2 = []
      · rw [if_pos hnil]
        refine ⟨(keys_mapDelete_sublist _ _).nodup hnd, ?_⟩
        intro col hcol
        exact hcols col (mem_mapDelete _ _ _ hcol)
      · rw [if_neg hnil]
        refine ⟨nodup_keys_mapSet _ _ _ hnd, ?_⟩
        intro col hcol
        rcases mem_mapSet _ _ _ _ hcol with h1 | h1
        · subst h1
          exact (keys_mapDelete_sublist _ _).nodup hynd
        · exact hcols col h1

theorem unload_storage_of_some (now : Int) (s : ManagerState) (c : Int × Int)
    (h : ChunkHolder) (hc : chunkAt s c = some h) :
    (ChunkManager.unload now s c).1.storage = mapSet s.storage (coordKey c)
      ⟨c, h.uuid, h.paneData.map (fun e => e.2), none, false, now⟩ := by
  unfold chunkAt at hc
  cases hx : mapGet s.loadedChunks c.1 with
  | none => rw [hx] at hc; simp at hc
  | some yMap =>
    rw [hx, Option.some_bind] at hc
    simp only [ChunkManager.unload, unloadCore, hx, hc, if_true]

/-! ### The renderChunks folds -/

theorem cheb_offset (origin off : Int × Int) :
    cheb (origin.1 + off.1, origin.2 + off.2) origin = cheb off (0, 0) := by
  have h1 : origin.1 + off.1 - origin.1 = off.1 := by ring
  have h2 : origin.2 + off.2 - origin.2 = off.2 := by ring
  rw [cheb, cheb]
  simp only
  rw [h1, h2, sub_zero, sub_zero]

theorem load_chunkAt_iff (fresh : String) (now : Int) (s : ManagerState) (c c' : Int × Int) :
    chunkAt (ChunkManager.load fresh now s c).1 c' ≠ none ↔
      (chunkAt s c' ≠ none ∨ c' = c) := by
  unfold ChunkManager.load
  by_cases he : c' = c
  · subst he
    exact ⟨fun _ => Or.inr rfl, fun _ => loadWithFetch_chunkAt_self _ _ _ _ _⟩
  · rw [loadWithFetch_chunkAt_ne _ _ _ _ _ _ he]
    simp [he]

theorem loadFold_spec (freshAt : Int × Int → String) (now : Int) (origin : Int × Int) :
    ∀ (offs : List (Int × Int)) (acc : ManagerState × List (Int × Int)), WFState acc.1 →
      WFState ((offs.foldl (loadStep freshAt now origin) acc).1) ∧
      ∀ c', chunkAt ((offs.foldl (loadStep freshAt now origin) acc).1) c' ≠ none ↔
        (chunkAt acc.1 c' ≠ none ∨
          ∃ off ∈ offs, c' = (origin.1 + off.1, origin.2 + off.2)) := by
  intro offs
  induction offs with
  | nil =>
    intro acc h
    exact ⟨h, fun c' => by simp⟩
  | cons off offs ih =>
    intro acc hWF
    rw [List.foldl_cons]
    have hstep1 : WFState (loadStep freshAt now origin acc off).1 := by
      unfold loadStep ChunkManager.load
      exact loadWithFetch_WF _ _ _ _ _ hWF
    obtain ⟨hW, hiff⟩ := ih (loadStep freshAt now origin acc off) hstep1
    refine ⟨hW, fun c' => ?_⟩
    rw [hiff c']
    have hstep : chunkAt (loadStep freshAt now origin acc off).1 c' ≠ none ↔
        (chunkAt acc.1 c' ≠ none ∨ c' = (origin.1 + off.1, origin.2 + off.2)) := by
      unfold loadStep
      exact load_chunkAt_iff _ _ _ _ _
    rw [hstep]
    have hcons : (∃ o ∈ off :: offs, c' = (origin.1 + o.1, origin.2 + o.2)) ↔
        (c' = (origin.1 + off.1, origin.2 + off.2) ∨
          ∃ o ∈ offs, c' = (origin.1 + o.1, origin.2 + o.2)) := by
      simp [List.mem_cons, exists_eq_or_imp]
    rw [hcons]
    tauto

theorem loadFold_noop (freshAt : Int × Int → String) (now : Int) (origin : Int × Int) :
    ∀ (offs : List (Int × Int)) (acc : ManagerState × List (Int × Int)),
      (∀ off ∈ offs, chunkAt acc.1 (origin.1 + off.1, origin.2 + off.2) ≠ none) →
      offs.foldl (loadStep freshAt now origin) acc = acc
  | [], _, _ => rfl
  | off :: offs, acc, h => by
    rw [List.foldl_cons]
    have hstep : loadStep freshAt now origin acc off = acc := by
      unfold loadStep ChunkManager.load
      simp only [loadWithFetch_loaded _ _ _ _ _ (h off (List.mem_cons_self off offs))]
    rw [hstep]
    exact loadFold_noop freshAt now origin offs acc
      (fun o ho => h o (List.mem_cons_of_mem off ho))

theorem unloadStep_chunkAt (now : Int) (x : Int) (acc : ManagerState × List (Int × Int))
    (ye : Int × ChunkHolder) (hWF : WFState acc.1) (c' : Int × Int) :
    chunkAt (unloadStep now x acc ye).1 c' =
      if c' = (x, ye.1) then none else chunkAt acc.1 c' := by
  unfold unloadStep
  exact unload_chunkAt now acc.1 (x, ye.1) hWF c'

theorem unloadStep_WF (now : Int) (x : Int) (acc : ManagerState × List (Int × Int))
    (ye : Int × ChunkHolder) (hWF : WFState acc.1) : WFState (unloadStep now x acc ye).1 := by
  unfold unloadStep
  exact unload_WF now acc.1 (x, ye.1) hWF

theorem unloadStep_snd (now : Int) (x : Int) (acc : ManagerState × List (Int × Int))
    (ye : Int × ChunkHolder) (c : Int × Int) (h : c ∈ (unloadStep now x acc ye).2) :
    c ∈ acc.2 ∨ c = (x, ye.1) := by
  unfold unloadStep at h
  simp only at h
  split at h
  · rcases List.mem_append.mp h with h1 | h1
    · exact Or.inl h1
    · exact Or.inr (List.mem_singleton.mp h1)
  · exact Or.inl h

theorem evictAll_spec (now : Int) (x : Int) :
    ∀ (ys : List (Int × ChunkHolder)) (acc : ManagerState × List (Int × Int)),
      WFState acc.1 →
      WFState ((ys.foldl (unloadStep now x) acc).1) ∧
      (∀ c', chunkAt ((ys.foldl (unloadStep now x) acc).1) c' =
        if c'.1 = x ∧ c'.2 ∈ ys.map (fun e => e.1) then none else chunkAt acc.1 c') ∧
      (∀ c ∈ (ys.foldl (unloadStep now x) acc).2, c ∈ acc.2 ∨ c.1 = x) := by
  intro ys
  induction ys with
  | nil =>
    intro acc h
    refine ⟨h, fun c' => ?_, fun c hc => Or.inl hc⟩
    simp
  | cons ye ys ih =>
    intro acc hWF
    rw [List.foldl_cons]
    have hWF' := unloadStep_WF now x acc ye hWF
    obtain ⟨hW, hat, hsnd⟩ := ih (unloadStep now x acc ye) hWF'
    refine ⟨hW, fun c' => ?_, fun c hc => ?_⟩
    · rw [hat c', unloadStep_chunkAt now x acc ye hWF c']
      by_cases h1 : c'.1 = x <;> by_cases h2 : c'.2 = ye.1 <;>
        by_cases h3 : c'.2 ∈ ys.map (fun e => e.1) <;>
          simp [h1, h2, h3, Prod.ext_iff]
    · rcases hsnd c hc with h1 | h1
      · rcases unloadStep_snd now x acc ye c h1 with h2 | h2
        · exact Or.inl h2
        · exact Or.inr (by rw [h2])
      · exact Or.inr h1

theorem evictFiltered_spec (now : Int) (origin : Int × Int) (R : Nat) (x : Int) :
    ∀ (ys : List (Int × ChunkHolder)) (acc : ManagerState × List (Int × Int)),
      WFState acc.1 →
      WFState ((ys.foldl (fun acc2 ye =>
        if |origin.2 - ye.1| ≤ (R : Int) then acc2 else unloadStep now x acc2 ye) acc).1) ∧
      (∀ c', chunkAt ((ys.foldl (fun acc2 ye =>
          if |origin.2 - ye.1| ≤ (R : Int) then acc2 else unloadStep now x acc2 ye) acc).1) c' =
        if c'.1 = x ∧ c'.2 ∈ (ys.filter (fun ye =>
            !(decide (|origin.2 - ye.1| ≤ (R : Int))))).map (fun e => e.1) then none
        else chunkAt acc.1 c') ∧
      (∀ c ∈ (ys.foldl (fun acc2 ye =>
          if |origin.2 - ye.1| ≤ (R : Int) then acc2 else unloadStep now x acc2 ye) acc).2,
        c ∈ acc.2 ∨ (c.1 = x ∧ (R : Int) < |origin.2 - c.2|)) := by
  intro ys
  induction ys with
  | nil =>
    intro acc h
    refine ⟨h, fun c' => ?_, fun c hc => Or.inl hc⟩
    simp
  | cons ye ys ih =>
    intro acc hWF
    rw [List.foldl_cons]
    by_cases hin : |origin.2 - ye.1| ≤ (R : Int)
    · rw [if_pos hin]
      obtain ⟨hW, hat, hsnd⟩ := ih acc hWF
      refine ⟨hW, fun c' => ?_, hsnd⟩
      rw [hat c']
      rw [List.filter_cons_of_neg (by simp [hin])]
    · rw [if_neg hin]
      have hWF' := unloadStep_WF now x acc ye hWF
      obtain ⟨hW, hat, hsnd⟩ := ih (unloadStep now x acc ye) hWF'
      refine ⟨hW, fun c' => ?_, fun c hc => ?_⟩
      · rw [hat c', unloadStep_chunkAt now x acc ye hWF c',
          List.filter_cons_of_pos (by simp [hin])]
        by_cases h1 : c'.1 = x <;> by_cases h2 : c'.2 = ye.1 <;>
          by_cases h3 : c'.2 ∈ (ys.filter (fun ye =>
              !(decide (|origin.2 - ye.1| ≤ (R : Int))))).map (fun e => e.1) <;>
            simp [h1, h2, h3, Prod.ext_iff]
      · rcases hsnd c hc with h1 | h1
        · rcases unloadStep_snd now x acc ye c h1 with h2 | h2
          · exact Or.inl h2
          · refine Or.inr ⟨by rw [h2], ?_⟩
            rw [h2]
            simpa using lt_of_not_ge hin
        · exact Or.inr h1

theorem evictColumn_spec (now : Int) (origin : Int × Int) (R : Nat)
    (col : Int × List (Int × ChunkHolder)) (acc : ManagerState × List (Int × Int))
    (hWF : WFState acc.1) :
    WFState ((evictColumn now origin R acc col).1) ∧
    (∀ c', (colVictim origin R col c' →
        chunkAt ((evictColumn now origin R acc col).1) c' = none) ∧
      (¬ colVictim origin R col c' →
        chunkAt ((evictColumn now origin R acc col).1) c' = chunkAt acc.1 c')) ∧
    (∀ c ∈ (evictColumn now origin R acc col).2,
      c ∈ acc.2 ∨ (R : Int) < cheb c origin) := by
  obtain ⟨x, ys⟩ := col
  by_cases hout : |origin.1 - x| > (R : Int)
  · simp only [evictColumn, colVictim, if_pos hout]
    obtain ⟨hW, hat, hsnd⟩ := evictAll_spec now x ys acc hWF
    refine ⟨hW, fun c' => ⟨fun hv => ?_, fun hnv => ?_⟩, fun c hc => ?_⟩
    · rw [hat c', if_pos hv]
    · rw [hat c', if_neg hnv]
    · rcases hsnd c hc with h1 | h1
      · exact Or.inl h1
      · refine Or.inr ?_
        have h2 : |origin.1 - c.1| > (R : Int) := by rw [h1]; exact hout
        have h3 : |c.1 - origin.1| ≤ cheb c origin := le_max_left _ _
        rw [abs_sub_comm] at h2
        exact lt_of_lt_of_le h2 h3
  · simp only [evictColumn, colVictim, if_neg hout]
    obtain ⟨hW, hat, hsnd⟩ := evictFiltered_spec now origin R x ys acc hWF
    refine ⟨hW, fun c' => ⟨fun hv => ?_, fun hnv => ?_⟩, fun c hc => ?_⟩
    · rw [hat c', if_pos hv]
    · rw [hat c', if_neg hnv]
    · rcases hsnd c hc with h1 | h1
      · exact Or.inl h1
      · refine Or.inr ?_
        have h3 : |c.2 - origin.2| ≤ cheb c origin := le_max_right _ _
        rw [abs_sub_comm] at h3
        exact lt_of_lt_of_le h1.2 h3

theorem evictFold_spec (now : Int) (origin : Int × Int) (R : Nat) :
    ∀ (cols : List (Int × List (Int × ChunkHolder)))
      (acc : ManagerState × List (Int × Int)), WFState acc.1 →
      WFState ((cols.foldl (evictColumn now origin R) acc).1) ∧
      (∀ c', ((∃ col ∈ cols, colVictim origin R col c') →
          chunkAt ((cols.foldl (evictColumn now origin R) acc).1) c' = none) ∧
        (¬(∃ col ∈ cols, colVictim origin R col c') →
          chunkAt ((cols.foldl (evictColumn now origin R) acc).1) c' = chunkAt acc.1 c')) ∧
      (∀ c ∈ (cols.foldl (evictColumn now origin R) acc).2,
        c ∈ acc.2 ∨ (R : Int) < cheb c origin) := by
  intro cols
  induction cols with
  | nil =>
    intro acc h
    refine ⟨h, fun c' => ⟨?_, fun _ => rfl⟩, fun c hc => Or.inl hc⟩
    rintro ⟨col, hmem, _⟩
    simp at hmem
  | cons col cols ih =>
    intro acc hWF
    rw [List.foldl_cons]
    obtain ⟨hWcol, hatcol, hsndcol⟩ := evictColumn_spec now origin R col acc hWF
    obtain ⟨hW, hat, hsnd⟩ := ih (evictColumn now origin R acc col) hWcol
    refine ⟨hW, fun c' => ⟨?_, ?_⟩, fun c hc => ?_⟩
    · rintro ⟨col0, hmem0, hvic0⟩
      rcases List.mem_cons.mp hmem0 with h1 | h1
      · by_cases h2 : ∃ col1 ∈ cols, colVictim origin R col1 c'
        · exact (hat c').1 h2
        · rw [(hat c').2 h2]
          exact (hatcol c').1 (h1 ▸ hvic0)
      · exact (hat c').1 ⟨col0, h1, hvic0⟩
    · intro h2
      have h3 : ¬ ∃ col1 ∈ cols, colVictim origin R col1 c' := by
        intro ⟨col1, hm, hv⟩
        exact h2 ⟨col1, List.mem_cons_of_mem col hm, hv⟩
      have h4 : ¬ colVictim origin R col c' := by
        intro hv
        exact h2 ⟨col, List.mem_cons_self col cols, hv⟩
      rw [(hat c').2 h3]
      exact (hatcol c').2 h4
    · rcases hsnd c hc with h1 | h1
      · exact hsndcol c h1
      · exact Or.inr h1

theorem evictFold_noop (now : Int) (origin : Int × Int) (R : Nat) :
    ∀ (cols : List (Int × List (Int × ChunkHolder)))
      (acc : ManagerState × List (Int × Int)),
      (∀ col ∈ cols, ∀ ye ∈ col.2,
        ¬ |origin.1 - col.1| > (R : Int) ∧ |origin.2 - ye.1| ≤ (R : Int)) →
      cols.foldl (evictColumn now origin R) acc = acc
  | [], _, _ => rfl
  | col :: cols, acc, h => by
    rw [List.foldl_cons]
    have hskip : ∀ (l : List (Int × ChunkHolder)) (acc2 : ManagerState × List (Int × Int)),
        (∀ ye ∈ l, |origin.2 - ye.1| ≤ (R : Int)) →
        l.foldl (fun acc2 ye =>
          if |origin.2 - ye.1| ≤ (R : Int) then acc2 else unloadStep now col.1 acc2 ye)
          acc2 = acc2 := by
      intro l
      induction l with
      | nil => intro acc2 _; rfl
      | cons ye l ihl =>
        intro acc2 hl
        rw [List.foldl_cons, if_pos (hl ye (List.mem_cons_self ye l))]
        exact ihl acc2 (fun y hy => hl y (List.mem_cons_of_mem ye hy))
    have hcol : evictColumn now origin R acc col = acc := by
      unfold evictColumn
      cases hys : col.2 with
      | nil =>
        split
        · rfl
        · rfl
      | cons ye ys =>
        have hhead := h col (List.mem_cons_self col cols) ye
          (by rw [hys]; exact List.mem_cons_self ye ys)
        rw [if_neg hhead.1]
        refine hskip (ye :: ys) acc ?_
        intro y hy
        exact (h col (List.mem_cons_self col cols) y (by rw [hys]; exact hy)).2
    rw [hcol]
    exact evictFold_noop now origin R cols acc
      (fun cl hcl => h cl (List.mem_cons_of_mem col hcl))

theorem victim_of_loaded (origin : Int × Int) (R : Nat) (s : ManagerState) (c : Int × Int)
    (hload : chunkAt s c ≠ none) (hfar : (R : Int) < cheb c origin) :
    ∃ col ∈ s.loadedChunks, colVictim origin R col c := by
  rw [chunkAt] at hload
  cases hx : mapGet s.loadedChunks c.1 with
  | none => rw [hx] at hload; simp at hload
  | some yMap =>
    rw [hx, Option.some_bind] at hload
    cases hy : mapGet yMap c.2 with
    | none => rw [hy] at hload; simp at hload
    | some hol =>
      have hmem : (c.2, hol) ∈ yMap := mapGet_some_mem _ _ _ hy
      refine ⟨(c.1, yMap), mapGet_some_mem _ _ _ hx, rfl, ?_⟩
      simp only
      by_cases hxfar : |origin.1 - c.1| > (R : Int)
      · rw [if_pos hxfar]
        exact List.mem_map.mpr ⟨(c.2, hol), hmem, rfl⟩
      · rw [if_neg hxfar]
        have hyfar : (R : Int) < |origin.2 - c.2| := by
          rcases lt_max_iff.mp hfar with h1 | h1
          · rw [abs_sub_comm] at h1; exact absurd h1 hxfar
          · rw [abs_sub_comm] at h1; exact h1
        refine List.mem_map.mpr ⟨(c.2, hol), ?_, rfl⟩
        refine List.mem_filter.mpr ⟨hmem, ?_⟩
        have hnle : ¬ (|origin.2 - c.2| ≤ (R : Int)) := not_le.mpr hyfar
        simp [hnle]

theorem no_victim_of_near (origin : Int × Int) (R : Nat) (c : Int × Int)
    (hnear : cheb c origin ≤ (R : Int)) (col : Int × List (Int × ChunkHolder)) :
    ¬ colVictim origin R col c := by
  rintro ⟨h1, h2⟩
  rw [cheb, max_le_iff] at hnear
  by_cases hxfar : |origin.1 - col.1| > (R : Int)
  · rw [← h1, abs_sub_comm] at hxfar
    exact absurd hnear.1 (not_le.mpr hxfar)
  · rw [if_neg hxfar] at h2
    obtain ⟨ye, hye, heq⟩ := List.mem_map.mp h2
    obtain ⟨hmem, hp⟩ := List.mem_filter.mp hye
    simp only [Bool.not_eq_true', decide_eq_false_iff_not] at hp
    rw [heq] at hp
    have h3 := hnear.2
    rw [abs_sub_comm] at h3
    exact hp h3

theorem renderChunks_spec (freshAt : Int × Int → String) (now : Int) (s : ManagerState)
    (origin : Int × Int) (R : Nat) (hWF : WFState s) :
    WFState (renderChunks freshAt now s origin R).1 ∧
    (∀ c, chunkAt (renderChunks freshAt now s origin R).1 c ≠ none ↔
      cheb c origin ≤ (R : Int)) ∧
    (∀ c ∈ (renderChunks freshAt now s origin R).2.2, (R : Int) < cheb c origin) := by
  obtain ⟨hW1, hiff1⟩ := loadFold_spec freshAt now origin (spiralOffsets R) (s, []) hWF
  set s1 := ((spiralOffsets R).foldl (loadStep freshAt now origin) (s, [])).1 with hs1
  obtain ⟨hW2, hat2, hsnd2⟩ := evictFold_spec now origin R s1.loadedChunks (s1, []) hW1
  have hrc : renderChunks freshAt now s origin R =
      ((s1.loadedChunks.foldl (evictColumn now origin R) (s1, [])).1,
       ((spiralOffsets R).foldl (loadStep freshAt now origin) (s, [])).2,
       (s1.loadedChunks.foldl (evictColumn now origin R) (s1, [])).2) := rfl
  rw [hrc]
  refine ⟨hW2, fun c => ?_, fun c hc => ?_⟩
  · constructor
    · intro hne
      by_contra hfar
      push_neg at hfar
      by_cases hv : ∃ col ∈ s1.loadedChunks, colVictim origin R col c
      · exact hne ((hat2 c).1 hv)
      · rw [(hat2 c).2 hv] at hne
        exact hv (victim_of_loaded origin R s1 c hne hfar)
    · intro hnear
      have hnv : ¬ ∃ col ∈ s1.loadedChunks, colVictim origin R col c := by
        rintro ⟨col, _, hvic⟩
        exact no_victim_of_near origin R c hnear col hvic
      rw [(hat2 c).2 hnv, Ne, ← Option.not_isSome_iff_eq_none, not_not,
        Option.isSome_iff_ne_none, hiff1 c]
      refine Or.inr ⟨(c.1 - origin.1, c.2 - origin.2), ?_, ?_⟩
      · rw [spiralOffsets_mem]
        rw [cheb] at hnear ⊢
        simp only [sub_zero]
        exact hnear
      · rw [Prod.ext_iff]
        constructor
        · simp only; ring
        · simp only; ring
  · rcases hsnd2 c hc with h1 | h1
    · exact absurd h1 (List.not_mem_nil c)
    · exact h1

/-- C1: after `requestWindow(origin, R)` (implemented as `renderChunks`),
for every origin, every `R ≥ 0` and any prior loaded set (well-formed as
a JS `Map` of `Map`s), the loaded chunk coordinates are exactly those at
Chebyshev distance at most `R` from the origin, and the two per-axis
eviction scans unload only chunks at Chebyshev distance greater than
`R`. -/
theorem renderChunks_window (freshAt : Int × Int → String) (now : Int) (s : ManagerState)
    (origin : Int × Int) (R : Nat) (hWF : WFState s) :
    (∀ c, chunkAt (renderChunks freshAt now s origin R).1 c ≠ none ↔
      cheb c origin ≤ (R : Int)) ∧
    (∀ c ∈ (renderChunks freshAt now s origin R).2.2, (R : Int) < cheb c origin) :=
  ⟨(renderChunks_spec freshAt now s origin R hWF).2.1,
   (renderChunks_spec freshAt now s origin R hWF).2.2⟩

theorem renderChunks_window_witness :
    WFState ⟨[], []⟩ ∧
    ((∀ c, chunkAt (renderChunks (fun _ => "u") 0 ⟨[], []⟩ (0, 0) 1).1 c ≠ none ↔
        cheb c (0, 0) ≤ ((1 : Nat) : Int)) ∧
      (∀ c ∈ (renderChunks (fun _ => "u") 0 ⟨[], []⟩ (0, 0) 1).2.2,
        ((1 : Nat) : Int) < cheb c (0, 0))) :=
  ⟨⟨List.nodup_nil, fun col h => absurd h (List.not_mem_nil col)⟩,
   renderChunks_window (fun _ => "u") 0 ⟨[], []⟩ (0, 0) 1
     ⟨List.nodup_nil, fun col h => absurd h (List.not_mem_nil col)⟩⟩

/-- C7: `requestWindow` (`renderChunks`) is idempotent: a second call
with the same origin and render distance leaves the state exactly as it
was and reports no chunk loaded and none unloaded. -/
theorem renderChunks_idempotent (freshAt freshAt2 : Int × Int → String) (now now2 : Int)
    (s : ManagerState) (origin : Int × Int) (R : Nat) (hWF : WFState s) :
    renderChunks freshAt2 now2 (renderChunks freshAt now s origin R).1 origin R =
      ((renderChunks freshAt now s origin R).1, [], []) := by
  obtain ⟨hW1, hwin, _⟩ := renderChunks_spec freshAt now s origin R hWF
  set t := (renderChunks freshAt now s origin R).1 with ht
  have hload : (spiralOffsets R).foldl (loadStep freshAt2 now2 origin) (t, []) = (t, []) := by
    refine loadFold_noop freshAt2 now2 origin (spiralOffsets R) (t, []) ?_
    intro off hoff
    show chunkAt t (origin.1 + off.1, origin.2 + off.2) ≠ none
    rw [hwin, cheb_offset]
    exact (spiralOffsets_mem R off).mp hoff
  have hentries : ∀ col ∈ t.loadedChunks, ∀ ye ∈ col.2,
      ¬|origin.1 - col.1| > (R : Int) ∧ |origin.2 - ye.1| ≤ (R : Int) := by
    intro col hcol ye hye
    have h1 : mapGet t.loadedChunks col.1 = some col.2 :=
      mapGet_of_mem_nodup _ _ _ hW1.1 hcol
    have h2 : mapGet col.2 ye.1 = some ye.2 :=
      mapGet_of_mem_nodup _ _ _ (hW1.2 col hcol) hye
    have hld : chunkAt t (col.1, ye.1) ≠ none := by
      rw [chunkAt]
      simp [h1, h2]
    have hnear := (hwin (col.1, ye.1)).mp hld
    rw [cheb, max_le_iff] at hnear
    simp only at hnear
    constructor
    · rw [abs_sub_comm] at hnear
      exact not_lt.mpr hnear.1
    · rw [abs_sub_comm]
      exact hnear.2
  have hevict : t.loadedChunks.foldl (evictColumn now2 origin R) (t, []) = (t, []) :=
    evictFold_noop now2 origin R t.loadedChunks (t, []) hentries
  show renderChunks freshAt2 now2 t origin R = (t, [], [])
  have hrc : renderChunks freshAt2 now2 t origin R =
      ((((spiralOffsets R).foldl (loadStep freshAt2 now2 origin) (t, [])).1.loadedChunks.foldl
          (evictColumn now2 origin R)
          (((spiralOffsets R).foldl (loadStep freshAt2 now2 origin) (t, [])).1, [])).1,
       ((spiralOffsets R).foldl (loadStep freshAt2 now2 origin) (t, [])).2,
       (((spiralOffsets R).foldl (loadStep freshAt2 now2 origin) (t, [])).1.loadedChunks.foldl
          (evictColumn now2 origin R)
          (((spiralOffsets R).foldl (loadStep freshAt2 now2 origin) (t, [])).1, [])).2) := rfl
  rw [hrc, hload]
  simp only
  rw [hevict]

theorem renderChunks_idempotent_witness :
    WFState ⟨[], []⟩ ∧
    renderChunks (fun _ => "v") 1 (renderChunks (fun _ => "u") 0 ⟨[], []⟩ (0, 0) 1).1 (0, 0) 1 =
      ((renderChunks (fun _ => "u") 0 ⟨[], []⟩ (0, 0) 1).1, [], []) :=
  ⟨⟨List.nodup_nil, fun col h => absurd h (List.not_mem_nil col)⟩,
   renderChunks_idempotent (fun _ => "u") (fun _ => "v") 0 1 ⟨[], []⟩ (0, 0) 1
     ⟨List.nodup_nil, fun col h => absurd h (List.not_mem_nil col)⟩⟩

theorem foldMountPane_restore (now : Int) (c : Int × Int) :
    ∀ (panes : List PaneData) (s : ManagerState) (hol : ChunkHolder),
      chunkAt s c = some hol →
      chunkAt (panes.foldl (fun st p => mountPane now st c p) s) c =
        some ⟨hol.uuid, panes.foldl (fun m p => mapSet m p.uuid p) hol.paneData⟩
  | [], s, hol, h => by rw [List.foldl_nil, List.foldl_nil, h]
  | p :: panes, s, hol, h => by
    rw [List.foldl_cons, List.foldl_cons]
    exact foldMountPane_restore now c panes _ _ (mountPane_chunkAt_self now s c p hol h)

theorem foldl_mapSet_values :
    ∀ (l : List (String × PaneData)) (acc : List (String × PaneData)),
      (l.map (fun e => e.1)).Nodup →
      (∀ e ∈ l, e.1 = e.2.uuid) →
      (∀ e ∈ l, mapGet acc e.1 = none) →
      (l.map (fun e => e.2)).foldl (fun m p => mapSet m p.uuid p) acc = acc ++ l
  | [], acc, _, _, _ => by simp
  | e :: l, acc, hnd, hkey, habs => by
    rw [List.map_cons, List.foldl_cons]
    rw [List.map_cons, List.nodup_cons] at hnd
    have hset : mapSet acc e.2.uuid e.2 = acc ++ [(e.1, e.2)] := by
      rw [← hkey e (List.mem_cons_self e l)]
      exact mapSet_append_of_none acc e.1 e.2 (habs e (List.mem_cons_self e l))
    rw [hset]
    have hrec := foldl_mapSet_values l (acc ++ [(e.1, e.2)]) hnd.2
      (fun e2 he2 => hkey e2 (List.mem_cons_of_mem e he2))
      (fun e2 he2 => by
        rw [mapGet_append_none acc _ _ (habs e2 (List.mem_cons_of_mem e he2))]
        have hne : e.1 ≠ e2.1 := by
          intro hh
          exact hnd.1 (hh ▸ (List.mem_map_of_mem (fun e3 => e3.1) he2))
        rw [mapGet, if_neg hne, mapGet])
    rw [hrec, List.append_assoc, List.singleton_append]

theorem loadWithFetch_stored (d : ChunkData) (fresh : String) (now : Int)
    (s : ManagerState) (c : Int × Int) (h : chunkAt s c = none) :
    (loadWithFetch (Except.ok (some d)) fresh now s c).2 = some d.uuid ∧
    chunkAt (loadWithFetch (Except.ok (some d)) fresh now s c).1 c =
      some ⟨d.uuid, d.panes.foldl (fun m p => mapSet m p.uuid p) []⟩ := by
  unfold chunkAt at h
  cases hx : mapGet s.loadedChunks c.1 with
  | none =>
    simp only [loadWithFetch, hx, reduceIte, mapGet_mapSet_self, Option.getD_some,
      mapGet, ne_eq, reduceCtorEq, not_false_eq_true, not_true_eq_false, if_false,
      ite_false]
    refine ⟨trivial, ?_⟩
    rw [foldMountPane_restore now c d.panes _ ⟨d.uuid, []⟩ (chunkAt_insert_fresh_self s c _)]
  | some yMap =>
    rw [hx, Option.some_bind] at h
    simp only [loadWithFetch, hx, reduceCtorEq, if_false, Option.getD_some, ne_eq, h,
      not_true_eq_false, ite_false]
    refine ⟨trivial, ?_⟩
    rw [foldMountPane_restore now c d.panes _ ⟨d.uuid, []⟩
      (chunkAt_insert_existing_self s c _ yMap)]

/-- C6: for a loaded chunk, `unload` followed by `load` (the browser
key/value store not failing) restores a chunk with the same identifier
and the same pane map (keyed by pane identifier, same stored record for
each pane); moreover whenever a stored record exists for a coordinate,
`load` adopts its persisted identifier and never mints the fresh one,
so the identifier assigned at a coordinate's first creation is never
regenerated. -/
theorem unload_load_roundtrip (now now2 : Int) (fresh : String) (s : ManagerState)
    (c : Int × Int) (h : ChunkHolder) (hWF : WFState s) (hHol : WFHolder h)
    (hc : chunkAt s c = some h) :
    chunkAt (ChunkManager.load fresh now2 (ChunkManager.unload now s c).1 c).1 c = some h ∧
    (ChunkManager.load fresh now2 (ChunkManager.unload now s c).1 c).2 = some h.uuid ∧
    (∀ (s' : ManagerState) (c' : Int × Int) (d : ChunkData) (fresh' : String) (now' : Int),
      chunkAt s' c' = none → mapGet s'.storage (coordKey c') = some d →
      (ChunkManager.load fresh' now' s' c').2 = some d.uuid) := by
  have hnl : chunkAt (ChunkManager.unload now s c).1 c = none := by
    rw [unload_chunkAt now s c hWF c, if_pos rfl]
  have hstor : mapGet (ChunkManager.unload now s c).1.storage (coordKey c) =
      some ⟨c, h.uuid, h.paneData.map (fun e => e.2), none, false, now⟩ := by
    rw [unload_storage_of_some now s c h hc, mapGet_mapSet_self]
  have hload : ChunkManager.load fresh now2 (ChunkManager.unload now s c).1 c =
      loadWithFetch (Except.ok (some ⟨c, h.uuid, h.paneData.map (fun e => e.2), none,
        false, now⟩)) fresh now2 (ChunkManager.unload now s c).1 c := by
    rw [ChunkManager.load, hstor]
  obtain ⟨huuid, hat⟩ := loadWithFetch_stored
    ⟨c, h.uuid, h.paneData.map (fun e => e.2), none, false, now⟩ fresh now2
    (ChunkManager.unload now s c).1 c hnl
  refine ⟨?_, ?_, ?_⟩
  · rw [hload, hat]
    have hfold : (h.paneData.map (fun e => e.2)).foldl
        (fun m p => mapSet m p.uuid p) [] = h.paneData := by
      rw [foldl_mapSet_values h.paneData [] hHol.1 hHol.2 (fun e _ => rfl)]
      rw [List.nil_append]
    rw [hfold]
  · rw [hload, huuid]
  · intro s' c' d fresh' now' h1 h2
    rw [ChunkManager.load, h2]
    exact (loadWithFetch_stored d fresh' now' s' c' h1).1

theorem unload_load_roundtrip_witness :
    WFState ⟨[(1, [(2, ⟨"u", [("p1", samplePane)]⟩)])], []⟩ ∧
    WFHolder ⟨"u", [("p1", samplePane)]⟩ ∧
    chunkAt ⟨[(1, [(2, ⟨"u", [("p1", samplePane)]⟩)])], []⟩ (1, 2) =
      some ⟨"u", [("p1", samplePane)]⟩ ∧
    (chunkAt (ChunkManager.load "fresh" 5
        (ChunkManager.unload 3 ⟨[(1, [(2, ⟨"u", [("p1", samplePane)]⟩)])], []⟩ (1, 2)).1
        (1, 2)).1 (1, 2) = some ⟨"u", [("p1", samplePane)]⟩ ∧
      (ChunkManager.load "fresh" 5
        (ChunkManager.unload 3 ⟨[(1, [(2, ⟨"u", [("p1", samplePane)]⟩)])], []⟩ (1, 2)).1
        (1, 2)).2 = some "u" ∧
      (∀ (s' : ManagerState) (c' : Int × Int) (d : ChunkData) (fresh' : String) (now' : Int),
        chunkAt s' c' = none → mapGet s'.storage (coordKey c') = some d →
        (ChunkManager.load fresh' now' s' c').2 = some d.uuid)) :=
  ⟨by unfold WFState WFCols; decide, by unfold WFHolder samplePane; decide, by decide,
   unload_load_roundtrip 3 5 "fresh" ⟨[(1, [(2, ⟨"u", [("p1", samplePane)]⟩)])], []⟩
     (1, 2) ⟨"u", [("p1", samplePane)]⟩ (by unfold WFState WFCols; decide)
     (by unfold WFHolder samplePane; decide) (by decide)⟩

end Zither
